import Mathlib

/-!
Verification of the sequencing / reservation engine of the File_Maneger
repository (src/file_manager.py and src/directory_manager.py).

Folder names are modelled as `String` (Lean strings are lists of
characters, a faithful model of Python text for the names involved).
The state of the open directory is a `List String` of its subfolder
names (real directories never contain duplicate names, so theorems carry
a `Nodup` hypothesis).  `os.path.normcase` is the identity on POSIX, and
the model keeps it as an explicit identity function exactly where the
source applies it.
-/

namespace FMspec

/-- Identity on POSIX: `os.path.normcase` does not change a path there.
The source applies it before case-insensitive comparisons. -/
def normcase (s : String) : String := s

/-- Character of a decimal digit value, as Python produces it
(`chr(48 + d)` for `0 ≤ d ≤ 9`). -/
def digitChar (d : Nat) : Char := Char.ofNat (48 + d)

/-- Fuel-driven big-endian decimal digit list of a natural number,
mirroring CPython's decimal rendering of a nonnegative `int`.
`fuel ≥ n + 1` always suffices. -/
def natDigitsAux : Nat → Nat → List Char
  | 0, _ => []
  | fuel + 1, n =>
    if n < 10 then [digitChar n]
    else natDigitsAux fuel (n / 10) ++ [digitChar (n % 10)]

/-- Decimal digit characters of `n`, most significant first: the model of
Python `str(n)` for a nonnegative integer. -/
def natDigits (n : Nat) : List Char := natDigitsAux (n + 1) n

/-- Model of the Python format spec `f"{n:02d}"` for `n ≥ 0`: zero-pad the
decimal rendering on the left to width two (wider numbers unchanged). -/
def pad2 (n : Nat) : String :=
  if n < 10 then String.mk ('0' :: natDigits n) else String.mk (natDigits n)

/-- Model of `re.sub(r"^\d+_?", "", s)` on the character list of `s`:
remove one leading maximal run of ASCII digits (required, at least one)
followed by one optional underscore; if the string does not start with a
digit, the regex does not match and the list is unchanged. -/
def stripSeqL (l : List Char) : List Char :=
  match l.takeWhile Char.isDigit, l.dropWhile Char.isDigit with
  | [], _ => l
  | _ :: _, '_' :: t => t
  | _ :: _, r => r

/-- Model of `re.sub(r"^\d+_?", "", s)` (used by `file_manager.py` in
`_confirm_sort` and by both variants in `_clear_prefix_number`). -/
def stripSeq (s : String) : String := String.mk (stripSeqL s.data)

/-- Model of `re.sub(r"^\d+_", "", s)`: like `stripSeq` but the
underscore after the digit run is required for the regex to match
(used by `directory_manager.py` in `_confirm_sort`). -/
def stripSeqUL (l : List Char) : List Char :=
  match l.takeWhile Char.isDigit, l.dropWhile Char.isDigit with
  | [], _ => l
  | _ :: _, '_' :: t => t
  | _ :: _, _ => l

/-- Strip variant of `directory_manager._confirm_sort` as a `String`
function. -/
def stripSeqU (s : String) : String := String.mk (stripSeqUL s.data)

/-- file_manager.py line 1228:
`base_name = re.sub(r"^\d+_?", "", folder_name) or folder_name`
(Python `or` falls back to the original name when the stripped string is
empty/falsy). -/
def baseNameFM (s : String) : String := if stripSeq s = "" then s else stripSeq s

/-- directory_manager.py line 354:
`base_name = re.sub(r"^\d+_", "", folder_name)` — underscore required,
and no fallback for an empty result. -/
def baseNameDM (s : String) : String := stripSeqU s

/-- Candidate `f"{idx:02d}_{base}"` (file_manager.py line 1229,
directory_manager.py line 355). -/
def seqName (idx : Nat) (base : String) : String :=
  String.mk ((pad2 idx).data ++ '_' :: base.data)

/-- The `k`-th candidate tried by the collision loop: the plain candidate
for `k = 0`, and `f"{idx:02d}_{base} ({k})"` for `k ≥ 1`
(file_manager.py line 1236, directory_manager.py line 360). -/
def tryCand (idx : Nat) (base : String) (k : Nat) : String :=
  if k = 0 then seqName idx base
  else String.mk ((seqName idx base).data ++ ' ' :: '(' :: (natDigits k ++ [')']))

/-- The loop exit test of file_manager.py line 1234:
`new_name not in used_names and (new_norm == current_norm or new_norm not
in existing_norm)`.  `existing` holds normcased names.
directory_manager.py line 359 is the same test with the live directory
state in place of `existing` (its `os.path.exists(new_path)` check) and
without normcasing, which on POSIX coincides. -/
def freeName (used existing : List String) (current cand : String) : Bool :=
  !(used.contains cand) &&
    (normcase cand == normcase current || !(existing.contains (normcase cand)))

/-- Fuel-driven model of the `while True` collision loop: try candidates
`tryCand idx base k`, `tryCand idx base (k+1)`, … returning the first
free one.  On fuel exhaustion the current candidate is returned; the
adequacy lemma shows the fuel used by `pickName` never exhausts. -/
def searchName (used existing : List String) (current : String) (idx : Nat)
    (base : String) : Nat → Nat → String
  | 0, k => tryCand idx base k
  | fuel + 1, k =>
    if freeName used existing current (tryCand idx base k) then tryCand idx base k
    else searchName used existing current idx base fuel (k + 1)

/-- Resolved new name for one non-reserved entry (the whole collision
loop of file_manager.py lines 1231-1237).  The fuel bound
`|used| + |existing| + 1` exceeds the number of names the loop can
collide with, so the loop always exits within it. -/
def pickName (used existing : List String) (current : String) (idx : Nat)
    (base : String) : String :=
  searchName used existing current idx base (used.length + existing.length + 1) 0

/-- Planning loop of file_manager.py `_confirm_sort` (lines 1223-1241):
walk the widget items in order, skip reserved entries without consuming a
sequence number, and for the others pick a collision-free
`"{index:02d}_{base}"` name, recording it in `used_names` and
`existing_norm`. -/
def planFM (reserved : List String) :
    List String → Nat → List String → List String → List (String × String)
  | [], _, _, _ => []
  | name :: rest, idx, used, existing =>
    if name ∈ reserved then planFM reserved rest idx used existing
    else
      let nn := pickName used existing name idx (baseNameFM name)
      (name, nn) :: planFM reserved rest (idx + 1) (used ++ [nn]) (existing ++ [normcase nn])

/-- Full rename plan of file_manager.py `_confirm_sort`: the pre-batch
snapshot (normcased directory listing, line 1219) seeds the collision
set, the index counter starts at 1. -/
def confirmSortPlan (entries reserved snapshot : List String) : List (String × String) :=
  planFM reserved entries 1 [] (snapshot.map normcase)

/-- Effect of a successful `os.rename(join(base, old), join(base, nn))`
on the directory state: the entry named `old` now bears the name `nn`.
(The theorems establish that when this is reached, `old` is present and
`nn` is not, so no overwrite case arises.) -/
def renameFS (st : List String) (old nn : String) : List String :=
  st.map (fun x => if x = old then nn else x)

/-- Execution loop of file_manager.py `_confirm_sort` (lines 1242-1255),
error-free runs: skip an entry whose source vanished, skip when old and
new path agree under `normcase`, otherwise rename. -/
def applyPlan (st : List String) : List (String × String) → List String
  | [] => st
  | (old, nn) :: rest =>
    if old ∈ st then
      if normcase old = normcase nn then applyPlan st rest
      else applyPlan (renameFS st old nn) rest
    else applyPlan st rest

/-- file_manager.py `_confirm_sort`: build the complete plan from the
snapshot, then execute it (error-free run). `entries` is the widget
order, `st` the directory state (also the scandir snapshot). -/
def confirmSortFM (entries reserved st : List String) : List String :=
  applyPlan st (confirmSortPlan entries reserved st)

/-- directory_manager.py `_confirm_sort` (lines 349-366): for each entry
compute the next free name against the LIVE directory state and rename
immediately, interleaving planning with execution. -/
def confirmSortDMGo : List String → List String → Nat → List String → List String
  | [], st, _, _ => st
  | name :: rest, st, idx, used =>
    let nn := searchName used st name idx (baseNameDM name) (used.length + st.length + 1) 0
    let st' := if name ∈ st then renameFS st name nn else st
    confirmSortDMGo rest st' (idx + 1) (used ++ [nn])

/-- directory_manager.py `_confirm_sort` entry point. -/
def confirmSortDM (entries st : List String) : List String :=
  confirmSortDMGo entries st 1 []

/-- Modelled from the spec (§4.1 step 5, "Build the full rename plan
before executing any filesystem mutation"): a pure planning pass for the
directory_manager variant that simulates the renames on a copy of the
initial snapshot instead of mutating the filesystem.  Used only to be
compared with the interleaved `confirmSortDMGo`. -/
def planDMGo : List String → List String → Nat → List String → List (String × String)
  | [], _, _, _ => []
  | name :: rest, st, idx, used =>
    let nn := searchName used st name idx (baseNameDM name) (used.length + st.length + 1) 0
    let st' := if name ∈ st then renameFS st name nn else st
    (name, nn) :: planDMGo rest st' (idx + 1) (used ++ [nn])

/-- Pure plan of the directory_manager variant from the initial snapshot. -/
def planDM (entries st : List String) : List (String × String) :=
  planDMGo entries st 1 []

/-- Executor for a directory_manager plan: rename in plan order, skipping
entries whose source vanished (the `os.path.exists(current_path)` guard of
line 364). -/
def applyPlanDM (st : List String) : List (String × String) → List String
  | [] => st
  | (old, nn) :: rest => applyPlanDM (if old ∈ st then renameFS st old nn else st) rest

/-- Name an executed plan assigns to a pre-batch entry name: the new name
of its first plan entry, or the name itself when the plan does not touch
it. -/
def lookupNew (plan : List (String × String)) (x : String) : String :=
  match plan.find? (fun p => p.1 == x) with
  | some p => p.2
  | none => x

/-- Decide `re.match(r"^\d{2}_.+", s)` and extract the numeric value of
the two-digit prefix: `some v` when `s` is two ASCII digits of value `v`,
an underscore, and a nonempty remainder; `none` otherwise. -/
def twoDigitVal (s : String) : Option Nat :=
  match s.data with
  | c1 :: c2 :: c3 :: rest =>
    if c1.isDigit ∧ c2.isDigit ∧ c3 = '_' ∧ rest ≠ [] then
      some (10 * (c1.toNat - 48) + (c2.toNat - 48))
    else none
  | _ => none

/-- Loop body of file_manager.py `_clear_prefix_number` (lines 1286-1310),
error-free runs: iterate over the snapshot `folders`, skip reserved names,
skip when the stripped name is empty or unchanged, skip when it collides
(normcased) with a different existing name, otherwise rename and update
the `existing_norm` set (`discard` old, `add` new). -/
def clearSeqNumsFMGo (reserved : List String) :
    List String → List String → List String → List String
  | [], _, st => st
  | old :: rest, existing, st =>
    if old ∈ reserved then clearSeqNumsFMGo reserved rest existing st
    else
      let nn := stripSeq old
      if nn = "" ∨ nn = old then clearSeqNumsFMGo reserved rest existing st
      else if normcase nn ∈ existing ∧ normcase nn ≠ normcase old then
        clearSeqNumsFMGo reserved rest existing st
      else
        clearSeqNumsFMGo reserved rest
          ((existing.erase (normcase old)) ++ [normcase nn]) (renameFS st old nn)

/-- file_manager.py `_clear_prefix_number`: snapshot the folders, seed
`existing_norm` with their normcased names, then run the loop. -/
def clearSeqNumsFM (st reserved : List String) : List String :=
  clearSeqNumsFMGo reserved st (st.map normcase) st

/-- Loop body of directory_manager.py `_clear_prefix_number`
(lines 396-412), error-free runs: no reserved set, and the collision
check is a live `os.path.exists(new_path)` against the current state. -/
def clearSeqNumsDMGo : List String → List String → List String
  | [], st => st
  | old :: rest, st =>
    let nn := stripSeq old
    if nn ≠ "" ∧ nn ≠ old then
      if nn ∈ st then clearSeqNumsDMGo rest st
      else clearSeqNumsDMGo rest (renameFS st old nn)
    else clearSeqNumsDMGo rest st

/-- directory_manager.py `_clear_prefix_number` entry point. -/
def clearSeqNumsDM (st : List String) : List String := clearSeqNumsDMGo st st

/-! ### Error classification (file_manager.py lines 775-785, 1242-1255) -/

/-- Linux values of the errno constants used by
`_is_folder_in_use_error` (`errno.EACCES`, `errno.EBUSY`,
`errno.EPERM`). -/
def EACCES : Nat := 13

/-- Linux value of `errno.EBUSY`. -/
def EBUSY : Nat := 16

/-- Linux value of `errno.EPERM`. -/
def EPERM : Nat := 1

/-- Shallow model of a Python `OSError` as the `_confirm_sort` handler
observes it: whether it is a `PermissionError`, its `errno` and
`winerror` attributes (absent attributes are `none`), and its message. -/
structure OsFault where
  isPermission : Bool
  errnoVal : Option Nat
  winerrVal : Option Nat
  msg : String
deriving DecidableEq

/-- file_manager.py `_is_folder_in_use_error` (lines 775-785):
a `PermissionError`, an errno of EACCES/EBUSY/EPERM, or a Windows error
32/33 counts as "folder in use". -/
def isFolderInUseError (e : OsFault) : Bool :=
  if e.isPermission then true
  else if e.errnoVal = some EACCES ∨ e.errnoVal = some EBUSY ∨ e.errnoVal = some EPERM then true
  else if e.winerrVal = some 32 ∨ e.winerrVal = some 33 then true
  else false

/-- User-visible reports the execution loop can emit: the non-fatal
"folder in use" warning naming the folder, or the critical
"Rename failed" box naming the folder and the error text. -/
inductive Report where
  | warning (folder : String)
  | critical (folder : String) (msg : String)
deriving DecidableEq

/-- Execution loop of file_manager.py `_confirm_sort` (lines 1242-1255)
with a fault oracle: `fault old nn = some e` means `os.rename` raises
`e` for that pair.  A missing source is skipped silently; an old = new
pair (normcased) is a no-op; a raised error is classified as a warning
or a critical report and the loop continues with the rest of the plan. -/
def applyPlanE (fault : String → String → Option OsFault) :
    List String → List (String × String) → List String × List Report
  | st, [] => (st, [])
  | st, (old, nn) :: rest =>
    if old ∈ st then
      if normcase old = normcase nn then applyPlanE fault st rest
      else
        match fault old nn with
        | none => applyPlanE fault (renameFS st old nn) rest
        | some e =>
          let r := if isFolderInUseError e then Report.warning old
                   else Report.critical old e.msg
          let out := applyPlanE fault st rest
          (out.1, r :: out.2)
    else applyPlanE fault st rest

/-! ### Application state: reservations, refresh, deferred notifications
(file_manager.py lines 630-718, 1128-1198) -/

/-- Code-point lexicographic comparison of two character lists, the
order Python string comparison uses. -/
def strLeL : List Char → List Char → Bool
  | [], _ => true
  | _ :: _, [] => false
  | a :: as, b :: bs =>
    if a.toNat < b.toNat then true
    else if b.toNat < a.toNat then false
    else strLeL as bs

/-- Python `a <= b` on strings. -/
def strLe (a b : String) : Bool := strLeL a.data b.data

/-- Insertion step of a stable sort by `strLe`. -/
def insertSorted (x : String) : List String → List String
  | [] => [x]
  | y :: ys => if strLe x y then x :: y :: ys else y :: insertSorted x ys

/-- Python `sorted` on a list of strings (stable, code-point
lexicographic). -/
def sortStrings : List String → List String
  | [] => []
  | x :: xs => insertSorted x (sortStrings xs)

/-- Value of `reserved_dict.get(base_path, [])`. -/
def mapGet (m : List (String × List String)) (k : String) : List String :=
  match m.find? (fun p => p.1 == k) with
  | some p => p.2
  | none => []

/-- Lookup of a key in the persisted reserved map (`none` when the key is
absent). -/
def mapFind (m : List (String × List String)) (k : String) : Option (List String) :=
  (m.find? (fun p => p.1 == k)).map (fun p => p.2)

/-- Assignment `reserved_dict[k] = v` on the association-list model. -/
def mapSet (m : List (String × List String)) (k : String) (v : List String) :
    List (String × List String) :=
  if (m.find? (fun p => p.1 == k)).isSome then
    m.map (fun p => if p.1 = k then (k, v) else p)
  else m ++ [(k, v)]

/-- Removal `reserved_dict.pop(k, None)`. -/
def mapPop (m : List (String × List String)) (k : String) :
    List (String × List String) :=
  m.filter (fun p => p.1 != k)

/-- Python set equality of two name collections. -/
def setEqNames (a b : List String) : Bool :=
  a.all (fun x => b.contains x) && b.all (fun x => a.contains x)

/-- In-memory session state relevant to reservations and refresh:
`_current_path`, `_last_folder_list`, the active `_reserved` set and the
persisted `reserved` dictionary of `_state`. -/
structure AppState where
  currentPath : String
  lastFolderList : List String
  reserved : List String
  storedMap : List (String × List String)
deriving DecidableEq

/-- file_manager.py `_save_reserved_state` (lines 710-718): no-op without
a current path; store `sorted(self._reserved)` under the current path
when the active set is nonempty, otherwise pop the key. -/
def saveReservedState (st : AppState) : AppState :=
  if st.currentPath = "" then st
  else if st.reserved ≠ [] then
    { st with storedMap := mapSet st.storedMap st.currentPath (sortStrings st.reserved) }
  else
    { st with storedMap := mapPop st.storedMap st.currentPath }

/-- Reconciliation core of file_manager.py `_refresh_list`
(lines 1151-1198), with `folders` the fresh sorted scandir listing:
short-circuit when path and listing are unchanged; otherwise intersect
the stored reserved set with the listing, adopt path/active set, persist
when the pruned set differs from the stored one (as sets), and finally
record the listing. -/
def refreshList (st : AppState) (basePath : String) (folders : List String) : AppState :=
  if basePath = st.currentPath ∧ folders = st.lastFolderList then st
  else
    { (if setEqNames ((mapGet st.storedMap basePath).filter (fun x => folders.contains x))
            (mapGet st.storedMap basePath) then
         { st with currentPath := basePath,
                   reserved := (mapGet st.storedMap basePath).filter
                     (fun x => folders.contains x) }
       else
         saveReservedState
           { st with currentPath := basePath,
                     reserved := (mapGet st.storedMap basePath).filter
                       (fun x => folders.contains x) })
      with lastFolderList := folders }

/-- file_manager.py `_on_directory_changed` (lines 1145-1148): ignore a
notification whose path is not the current path; otherwise defer
`_refresh_list(path)` via `QTimer.singleShot(0, …)` — modelled as
appending the captured path to a pending-task queue, with no synchronous
state change. -/
def onDirectoryChanged (st : AppState) (pending : List String) (path : String) :
    AppState × List String :=
  if path ≠ st.currentPath then (st, pending)
  else (st, pending ++ [path])

/-- Firing of one deferred `QTimer.singleShot(0, lambda: self._refresh_list(path))`
task: the captured path is refreshed unconditionally (the source has no
staleness re-check at execution time). -/
def runPendingRefresh (st : AppState) (path : String) (folders : List String) : AppState :=
  refreshList st path folders

/-! ### Persisted-state document, save and load
(file_manager.py lines 623-701, 963-1001) -/

/-- JSON values as `json.load` produces them (object keys are always
strings). -/
inductive J where
  | null
  | b (v : Bool)
  | num (v : Int)
  | str (v : String)
  | arr (xs : List J)
  | obj (fields : List (String × J))

/-- Note record as the application keeps it in memory
(`_add_note_with_text`, lines 1014-1024: exactly these five keys). -/
structure Note where
  content : String
  timestamp : String
  category : String
  completed : Bool
  pinned : Bool
deriving DecidableEq

/-- Note record as `_load_last_state` normalizes it (lines 683-685:
exactly content, timestamp, category and completed — no pinned key). -/
structure NoteRec where
  content : String
  timestamp : String
  category : String
  completed : Bool
deriving DecidableEq

/-- Result of `note.get("pinned", False)` on a note normalized by
`_load_last_state`: the normalized dict carries no `pinned` key, so the
read always yields the default. -/
def noteRecPinned (_n : NoteRec) : Bool := false

/-- Python whitespace test of `str.strip` (space, tab, newline, carriage
return, vertical tab, form feed). -/
def pyIsSpace (c : Char) : Bool :=
  c = ' ' ∨ c = '\t' ∨ c = '\n' ∨ c = '\r' ∨ c = '\x0b' ∨ c = '\x0c'

/-- Python `str.strip()`: drop leading and trailing whitespace. -/
def pyStrip (s : String) : String :=
  String.mk ((((s.data.dropWhile pyIsSpace).reverse).dropWhile pyIsSpace).reverse)

/-- Decimal rendering of a Python `int` (used by `str` on numbers). -/
def intRepr (v : Int) : String :=
  if v < 0 then String.mk ('-' :: natDigits v.natAbs) else String.mk (natDigits v.toNat)

/-- Python `str()` of a parsed JSON value.  Scalars follow CPython
exactly; for lists and dicts CPython renders the full `repr`, a nonempty
text no load path of this program inspects beyond truthiness, so the
model uses fixed nonempty placeholders. -/
def pyStr : J → String
  | J.str t => t
  | J.b true => "True"
  | J.b false => "False"
  | J.null => "None"
  | J.num v => intRepr v
  | J.arr _ => "<list>"
  | J.obj _ => "<dict>"

/-- Python `bool()` truthiness of a parsed JSON value. -/
def pyTruthy : J → Bool
  | J.null => false
  | J.b v => v
  | J.num v => v ≠ 0
  | J.str t => t ≠ ""
  | J.arr xs => !xs.isEmpty
  | J.obj fs => !fs.isEmpty

/-- Field access on a JSON object (`data.get(k)`). -/
def jGet (fields : List (String × J)) (k : String) : Option J :=
  (fields.find? (fun p => p.1 == k)).map (fun p => p.2)

/-- Field access with default (`data.get(k, d)`). -/
def jGetD (fields : List (String × J)) (k : String) (d : J) : J :=
  (jGet fields k).getD d

/-- Loaded state as `_load_last_state` returns it (the claim-relevant
fields; ui preferences are outside the modelled core per spec §1). -/
structure LoadedState where
  lastPath : String
  reserved : List (String × List String)
  notes : List NoteRec
deriving DecidableEq

/-- Keep an item only when it is a string (`isinstance(item, str)`;
`str(item)` of a string is the string itself). -/
def jAsStr : J → Option String
  | J.str t => some t
  | _ => none

/-- Sanitization of the `reserved` field (lines 655-665): a non-dict
becomes `{}`; entries whose value is not a list are dropped; non-string
items inside a value are dropped. -/
def loadReserved : J → List (String × List String)
  | J.obj fs =>
    fs.filterMap (fun p =>
      match p.2 with
      | J.arr xs => some (p.1, xs.filterMap jAsStr)
      | _ => none)
  | _ => []

/-- Normalization of one raw note entry (lines 671-692): a dict is kept
when its stripped content is nonempty, with the timestamp defaulted to
the generated `now` text, the category forced into `{idea, todo}` and
completed coerced to bool — the pinned key is not carried over; a bare
string is upgraded to a full record with the generated timestamp and
category `idea`; anything else is dropped. -/
def loadNote (now : String) : J → Option NoteRec
  | J.obj fs =>
    let content := pyStrip (pyStr (jGetD fs "content" (J.str "")))
    if content = "" then none
    else
      let ts0 := pyStrip (pyStr (jGetD fs "timestamp" (J.str "")))
      let ts := if ts0 = "" then now else ts0
      let cat0 := pyStr (jGetD fs "category" (J.str "idea"))
      let cat := if cat0 = "idea" ∨ cat0 = "todo" then cat0 else "idea"
      some ⟨content, ts, cat, pyTruthy (jGetD fs "completed" (J.b false))⟩
  | J.str t =>
    let content := pyStrip t
    if content = "" then none else some ⟨content, now, "idea", false⟩
  | _ => none

/-- Notes normalization (lines 668-693): a non-list `notes` field yields
an empty list. -/
def loadNotes (now : String) : J → List NoteRec
  | J.arr items => items.filterMap (loadNote now)
  | _ => []

/-- file_manager.py `_load_last_state` (lines 630-701) on the parsed
document: `none` stands for a missing file, unreadable file or JSON
parse error, all of which yield empty defaults, as does a non-object
document.  `now` is the `datetime.now().strftime("%Y-%m-%d %H:%M")`
text generated during this load. -/
def loadLastState (doc : Option J) (now : String) : LoadedState :=
  match doc with
  | none => ⟨"", [], []⟩
  | some (J.obj fs) =>
    { lastPath := match jGet fs "last_path" with
        | some (J.str t) => t
        | _ => ""
      reserved := loadReserved (jGetD fs "reserved" (J.obj []))
      notes := loadNotes now (jGetD fs "notes" (J.arr [])) }
  | some _ => ⟨"", [], []⟩

/-- JSON encoding of one in-memory note dict, as `json.dump` writes it
from `_save_notes` / `_write_state`. -/
def encodeNote (nt : Note) : J :=
  J.obj [("content", J.str nt.content), ("timestamp", J.str nt.timestamp),
         ("category", J.str nt.category), ("completed", J.b nt.completed),
         ("pinned", J.b nt.pinned)]

/-- JSON document `_write_state` produces for the claim-relevant state
fields (`last_path`, `reserved`, `notes`). -/
def encodeState (lastPath : String) (reserved : List (String × List String))
    (notes : List Note) : J :=
  J.obj [("last_path", J.str lastPath),
         ("reserved", J.obj (reserved.map (fun p => (p.1, J.arr (p.2.map J.str))))),
         ("notes", J.arr (notes.map encodeNote))]

/-- Field projection of an in-memory note onto the pinned-less record
shape, for stating what load preserves. -/
def noteToRec (nt : Note) : NoteRec := ⟨nt.content, nt.timestamp, nt.category, nt.completed⟩

/-- Suffix characters the `k`-th candidate appends to the plain
candidate (empty for `k = 0`, the text `" (k)"` for `k ≥ 1`). -/
def sfxL (k : Nat) : List Char :=
  if k = 0 then [] else ' ' :: '(' :: (natDigits k ++ [')'])

/-- Membership test used by theorem statements: `true` exactly on the
non-reserved entries. -/
def nonRes (reserved : List String) (x : String) : Bool := decide (x ∉ reserved)

/-- Conclusion of the sequencing-correctness claim for a directory whose
listing (in visual order) is `entries` with reserved set `reserved`:
the run maps every entry through the plan; reserved entries keep their
names byte-identically; the new names are pairwise distinct; the
non-reserved entries receive exactly the planned names in order; and the
planned names carry the two-digit prefixes `01..(N−R)` in order. -/
def C1Prop (entries reserved : List String) : Prop :=
  confirmSortFM entries reserved entries =
      entries.map (lookupNew (confirmSortPlan entries reserved entries)) ∧
  (∀ x ∈ entries, x ∈ reserved →
      lookupNew (confirmSortPlan entries reserved entries) x = x) ∧
  ((confirmSortPlan entries reserved entries).map Prod.snd).Nodup ∧
  (entries.filter (nonRes reserved)).map
      (lookupNew (confirmSortPlan entries reserved entries)) =
    (confirmSortPlan entries reserved entries).map Prod.snd ∧
  (confirmSortPlan entries reserved entries).map (fun p => twoDigitVal p.2) =
    (List.range (entries.filter (nonRes reserved)).length).map (fun k => some (k + 1))

/-- Directory of 100 distinct folders g0 … g99 used to exhibit the
failure of the two-digit-prefix regex beyond 99 entries. -/
def bigDir : List String := (List.range 100).map (fun i => String.mk ('g' :: natDigits i))

/-- Alignment of a listing with its position-derived sequence numbers:
walking the list with a counter that skips reserved entries, every
non-reserved name is exactly the candidate its index would produce
(`seqName idx (baseNameFM name) = name`).  The output of one
`_confirm_sort` pass is aligned, and planning over an aligned listing
yields only no-op entries. -/
def SelfAligned (reserved : List String) : Nat → List String → Prop
  | _, [] => True
  | idx, x :: rest =>
    if x ∈ reserved then SelfAligned reserved idx rest
    else seqName idx (baseNameFM x) = x ∧ SelfAligned reserved (idx + 1) rest

/-- Conclusion of the idempotence claim: running `_confirm_sort` again
on its own output (same visual order, same reserved set) yields a plan
whose every entry is a no-op, and the directory state is unchanged. -/
def C2Prop (entries reserved : List String) : Prop :=
  (∀ p ∈ confirmSortPlan (confirmSortFM entries reserved entries) reserved
      (confirmSortFM entries reserved entries), p.2 = p.1) ∧
  confirmSortFM (confirmSortFM entries reserved entries) reserved
      (confirmSortFM entries reserved entries)
    = confirmSortFM entries reserved entries

/-- Stability of one current folder name for a second `_clear_prefix_number`
pass over state `st`: it is reserved, or stripping changes nothing (empty
or identical result), or the stripped name collides with a stably-named
present folder.  Every name a first pass leaves behind satisfies this
when no input name carries a second numeric prefix, and every stable name
is skipped by the loop. -/
def StableMid (reserved st : List String) (y : String) : Prop :=
  y ∈ reserved ∨ stripSeq y = "" ∨ stripSeq y = y ∨
    (stripSeq y ∈ st ∧ stripSeq y ≠ y ∧ stripSeq (stripSeq y) = stripSeq y)

/-- Well-formedness of a rename plan against a directory state: each
source is present, no later entry renames the same source, and each new
name is either a no-op or fresh for the state and for every later source
and target.  Under this invariant executing the plan renames each listed
source to its planned name. -/
def PlanOK : List String → List (String × String) → Prop
  | _, [] => True
  | st, (o, n) :: rest =>
    o ∈ st ∧ (∀ p ∈ rest, p.1 ≠ o) ∧
    (n = o ∨ (n ∉ st ∧ ∀ p ∈ rest, n ≠ p.1 ∧ n ≠ p.2)) ∧
    PlanOK (if n = o then st else renameFS st o n) rest

end FMspec

namespace FMspec

/-! ## Basic lemmas: decimal digits and the two-digit prefix -/

theorem data_mk (l : List Char) : (String.mk l).data = l := rfl

theorem natDigitsAux_congr : ∀ f1 f2 n, n < f1 → n < f2 →
    natDigitsAux f1 n = natDigitsAux f2 n := by
  intro f1
  induction f1 with
  | zero => intro f2 n h; omega
  | succ f ih =>
    intro f2 n h1 h2
    cases f2 with
    | zero => omega
    | succ g =>
      simp only [natDigitsAux]
      by_cases h10 : n < 10
      · simp [h10]
      · have hd : n / 10 < n := Nat.div_lt_self (by omega) (by omega)
        simp only [if_neg h10]
        rw [ih g (n / 10) (by omega) (by omega)]

theorem natDigitsAux_succ (f n : Nat) :
    natDigitsAux (f + 1) n = if n < 10 then [digitChar n]
      else natDigitsAux f (n / 10) ++ [digitChar (n % 10)] := rfl

theorem natDigits_unfold (n : Nat) :
    natDigits n = if n < 10 then [digitChar n]
      else natDigits (n / 10) ++ [digitChar (n % 10)] := by
  unfold natDigits
  rw [natDigitsAux_succ]
  by_cases h : n < 10
  · simp [h]
  · have hd : n / 10 < n := Nat.div_lt_self (by omega) (by omega)
    rw [if_neg h, if_neg h,
      natDigitsAux_congr n (n / 10 + 1) (n / 10) (by omega) (by omega)]

theorem natDigits_ne_nil (n : Nat) : natDigits n ≠ [] := by
  rw [natDigits_unfold]; split <;> simp

theorem digitChar_isDigit : ∀ d, d < 10 → (digitChar d).isDigit = true := by decide

theorem digitChar_inj_aux : ∀ a, a < 10 → ∀ b, b < 10 →
    digitChar a = digitChar b → a = b := by decide

theorem digitChar_inj (a b : Nat) (ha : a < 10) (hb : b < 10)
    (h : digitChar a = digitChar b) : a = b := digitChar_inj_aux a ha b hb h

theorem digitChar_toNat : ∀ d, d < 10 → (digitChar d).toNat = 48 + d := by decide

theorem natDigits_digits : ∀ n, ∀ c ∈ natDigits n, c.isDigit = true := by
  intro n
  induction n using Nat.strong_induction_on with
  | _ n ih =>
    rw [natDigits_unfold]
    by_cases h : n < 10
    · simp only [if_pos h, List.mem_singleton]
      intro c hc
      exact hc ▸ digitChar_isDigit n h
    · simp only [if_neg h, List.mem_append, List.mem_singleton]
      rintro c (hc | hc)
      · exact ih (n / 10) (Nat.div_lt_self (by omega) (by omega)) c hc
      · exact hc ▸ digitChar_isDigit (n % 10) (Nat.mod_lt _ (by omega))

theorem natDigits_inj : ∀ m n, natDigits m = natDigits n → m = n := by
  intro m
  induction m using Nat.strong_induction_on with
  | _ m ih =>
    intro n h
    by_cases hm : m < 10 <;> by_cases hn : n < 10
    · rw [natDigits_unfold m, if_pos hm, natDigits_unfold n, if_pos hn] at h
      simp only [List.cons.injEq, and_true] at h
      exact digitChar_inj m n hm hn h
    · rw [natDigits_unfold m, if_pos hm, natDigits_unfold n, if_neg hn] at h
      have hl := congrArg List.length h
      simp only [List.length_singleton, List.length_append] at hl
      have h0 : (natDigits (n / 10)).length = 0 := by omega
      exact absurd (List.length_eq_zero.mp h0) (natDigits_ne_nil _)
    · rw [natDigits_unfold m, if_neg hm, natDigits_unfold n, if_pos hn] at h
      have hl := congrArg List.length h
      simp only [List.length_singleton, List.length_append] at hl
      have h0 : (natDigits (m / 10)).length = 0 := by omega
      exact absurd (List.length_eq_zero.mp h0) (natDigits_ne_nil _)
    · rw [natDigits_unfold m, if_neg hm, natDigits_unfold n, if_neg hn] at h
      obtain ⟨h1, h2⟩ := List.append_inj' h (by simp)
      have e1 := ih (m / 10) (Nat.div_lt_self (by omega) (by omega)) (n / 10) h1
      have e2 : m % 10 = n % 10 := by
        apply digitChar_inj _ _ (Nat.mod_lt _ (by omega)) (Nat.mod_lt _ (by omega))
        simpa using h2
      omega

theorem underscore_not_digit : ('_').isDigit = false := by decide

theorem takeWhile_digits_underscore (ds r : List Char)
    (hds : ∀ c ∈ ds, c.isDigit = true) :
    (ds ++ '_' :: r).takeWhile Char.isDigit = ds ∧
      (ds ++ '_' :: r).dropWhile Char.isDigit = '_' :: r := by
  induction ds with
  | nil => simp [List.takeWhile_cons, List.dropWhile_cons, underscore_not_digit]
  | cons c cs ihs =>
    have hc : c.isDigit = true := hds c (by simp)
    have ih := ihs (fun x hx => hds x (by simp [hx]))
    simp [List.takeWhile_cons, List.dropWhile_cons, hc, ih.1, ih.2]

theorem stripSeqL_run (ds r : List Char) (hne : ds ≠ [])
    (hds : ∀ c ∈ ds, c.isDigit = true) :
    stripSeqL (ds ++ '_' :: r) = r := by
  obtain ⟨ht, hd⟩ := takeWhile_digits_underscore ds r hds
  unfold stripSeqL
  rw [ht, hd]
  cases ds with
  | nil => exact absurd rfl hne
  | cons c cs => rfl

theorem pad2_digits (idx : Nat) : ∀ c ∈ (pad2 idx).data, c.isDigit = true := by
  unfold pad2
  split
  · simp only [data_mk, List.mem_cons]
    rintro c (rfl | hc)
    · decide
    · exact natDigits_digits idx c hc
  · simpa only [data_mk] using natDigits_digits idx

theorem pad2_ne_nil (idx : Nat) : (pad2 idx).data ≠ [] := by
  unfold pad2
  split
  · simp
  · simpa only [data_mk] using natDigits_ne_nil idx

theorem pad2_two_digits (idx : Nat) (h2 : idx ≤ 99) :
    ∃ c1 c2, (pad2 idx).data = [c1, c2] ∧ c1.isDigit = true ∧ c2.isDigit = true ∧
      10 * (c1.toNat - 48) + (c2.toNat - 48) = idx := by
  by_cases h : idx < 10
  · refine ⟨'0', digitChar idx, ?_, by decide, digitChar_isDigit idx h, ?_⟩
    · unfold pad2
      rw [if_pos h, data_mk, natDigits_unfold, if_pos h]
    · rw [digitChar_toNat idx h]
      have h0 : ('0').toNat = 48 := rfl
      rw [h0]
      omega
  · have hq : idx / 10 < 10 := by omega
    refine ⟨digitChar (idx / 10), digitChar (idx % 10), ?_,
      digitChar_isDigit _ hq, digitChar_isDigit _ (Nat.mod_lt _ (by omega)), ?_⟩
    · unfold pad2
      rw [if_neg h, data_mk, natDigits_unfold, if_neg h, natDigits_unfold, if_pos hq]
      rfl
    · rw [digitChar_toNat _ hq, digitChar_toNat _ (Nat.mod_lt _ (by omega))]
      omega

theorem twoDigitVal_seq (s : String) (idx : Nat) (r : List Char)
    (hs : s.data = (pad2 idx).data ++ '_' :: r) (h2 : idx ≤ 99) (hr : r ≠ []) :
    twoDigitVal s = some idx := by
  obtain ⟨c1, c2, hdata, hd1, hd2, hval⟩ := pad2_two_digits idx h2
  unfold twoDigitVal
  rw [hs, hdata]
  simp [hd1, hd2, hr, hval]

/-! ## Lemmas about the collision-resolution search -/

theorem freeName_iff (u e : List String) (cur c : String) :
    freeName u e cur c = true ↔ c ∉ u ∧ (c = cur ∨ c ∉ e) := by
  simp [freeName, normcase, List.contains, List.elem_iff, Bool.and_eq_true,
    Bool.or_eq_true, beq_iff_eq]

theorem tryCand_data (idx : Nat) (b : String) (k : Nat) :
    (tryCand idx b k).data = (pad2 idx).data ++ '_' :: (b.data ++ sfxL k) := by
  cases k with
  | zero => simp [tryCand, seqName, sfxL, data_mk]
  | succ j => simp [tryCand, seqName, sfxL, data_mk]

theorem sfxL_inj : ∀ j k, sfxL j = sfxL k → j = k := by
  intro j k h
  cases j with
  | zero =>
    cases k with
    | zero => rfl
    | succ k => simp [sfxL] at h
  | succ j =>
    cases k with
    | zero => simp [sfxL] at h
    | succ k =>
      simp only [sfxL, if_neg (Nat.succ_ne_zero j), if_neg (Nat.succ_ne_zero k),
        List.cons.injEq, true_and] at h
      obtain ⟨h1, -⟩ := List.append_inj' h (by simp)
      exact natDigits_inj _ _ h1

theorem tryCand_inj (idx : Nat) (b : String) : ∀ j k,
    tryCand idx b j = tryCand idx b k → j = k := by
  intro j k h
  have hd := congrArg String.data h
  rw [tryCand_data, tryCand_data] at hd
  have h1 := List.append_cancel_left hd
  simp only [List.cons.injEq, true_and] at h1
  exact sfxL_inj j k (List.append_cancel_left h1)

theorem searchName_exists_j (u e : List String) (cur : String) (idx : Nat)
    (b : String) : ∀ fuel k, ∃ j, searchName u e cur idx b fuel k = tryCand idx b j := by
  intro fuel
  induction fuel with
  | zero => intro k; exact ⟨k, rfl⟩
  | succ f ih =>
    intro k
    unfold searchName
    by_cases hf : freeName u e cur (tryCand idx b k) = true
    · exact ⟨k, by simp [hf]⟩
    · simpa [hf] using ih (k + 1)

theorem searchName_free_of_window (u e : List String) (cur : String) (idx : Nat)
    (b : String) : ∀ fuel k,
    (∃ j, k ≤ j ∧ j < k + fuel ∧ freeName u e cur (tryCand idx b j) = true) →
    freeName u e cur (searchName u e cur idx b fuel k) = true := by
  intro fuel
  induction fuel with
  | zero =>
    intro k ⟨j, hj1, hj2, _⟩
    omega
  | succ f ih =>
    intro k ⟨j, hj1, hj2, hjf⟩
    unfold searchName
    by_cases hk : freeName u e cur (tryCand idx b k) = true
    · simp [hk]
    · have hjk : j ≠ k := fun hE => hk (hE ▸ hjf)
      simp only [hk, if_false]
      exact ih (k + 1) ⟨j, by omega, by omega, hjf⟩

theorem exists_free_cand (u e : List String) (cur : String) (idx : Nat) (b : String) :
    ∃ j, j < u.length + e.length + 1 ∧ freeName u e cur (tryCand idx b j) = true := by
  by_contra hno
  push_neg at hno
  have hmem : ∀ j < u.length + e.length + 1, tryCand idx b j ∈ u ++ e := by
    intro j hj
    have hne := hno j hj
    have : ¬ (tryCand idx b j ∉ u ∧ (tryCand idx b j = cur ∨ tryCand idx b j ∉ e)) := by
      rw [← freeName_iff]
      simpa using hne
    push_neg at this
    rcases Decidable.em (tryCand idx b j ∈ u) with hu | hu
    · exact List.mem_append.mpr (Or.inl hu)
    · exact List.mem_append.mpr (Or.inr ((this hu).2))
  have hinj : Function.Injective (tryCand idx b) := fun a c hac => tryCand_inj idx b a c hac
  have hnd : ((List.range (u.length + e.length + 1)).map (tryCand idx b)).Nodup :=
    (List.nodup_range _).map hinj
  have hsub : (List.range (u.length + e.length + 1)).map (tryCand idx b) ⊆ u ++ e := by
    intro x hx
    obtain ⟨j, hj, rfl⟩ := List.mem_map.mp hx
    exact hmem j (List.mem_range.mp hj)
  have h1 : ((List.range (u.length + e.length + 1)).map (tryCand idx b)).toFinset.card
      = u.length + e.length + 1 := by
    rw [List.toFinset_card_of_nodup hnd]
    simp
  have h2 : ((List.range (u.length + e.length + 1)).map (tryCand idx b)).toFinset.card
      ≤ (u ++ e).toFinset.card := by
    apply Finset.card_le_card
    intro x hx
    exact List.mem_toFinset.mpr (hsub (List.mem_toFinset.mp hx))
  have h3 : (u ++ e).toFinset.card ≤ u.length + e.length := by
    calc (u ++ e).toFinset.card ≤ (u ++ e).length := List.toFinset_card_le _
      _ = u.length + e.length := by simp
  omega

theorem pickName_free (u e : List String) (cur : String) (idx : Nat) (b : String) :
    freeName u e cur (pickName u e cur idx b) = true := by
  unfold pickName
  apply searchName_free_of_window
  obtain ⟨j, hj, hf⟩ := exists_free_cand u e cur idx b
  exact ⟨j, by omega, by omega, hf⟩

theorem pickName_spec (u e : List String) (cur : String) (idx : Nat) (b : String) :
    pickName u e cur idx b ∉ u ∧
      (pickName u e cur idx b = cur ∨ pickName u e cur idx b ∉ e) :=
  (freeName_iff u e cur _).mp (pickName_free u e cur idx b)

theorem pickName_eq_tryCand (u e : List String) (cur : String) (idx : Nat) (b : String) :
    ∃ j, pickName u e cur idx b = tryCand idx b j :=
  searchName_exists_j u e cur idx b _ 0

theorem pickName_data (u e : List String) (cur : String) (idx : Nat) (b : String) :
    ∃ t, (pickName u e cur idx b).data = (pad2 idx).data ++ '_' :: (b.data ++ t) := by
  obtain ⟨j, hj⟩ := pickName_eq_tryCand u e cur idx b
  exact ⟨sfxL j, by rw [hj, tryCand_data]⟩

theorem pickName_first (u e : List String) (cur : String) (idx : Nat) (b : String)
    (hfree : freeName u e cur (seqName idx b) = true) :
    pickName u e cur idx b = seqName idx b := by
  have h0 : tryCand idx b 0 = seqName idx b := by simp [tryCand]
  unfold pickName
  show searchName u e cur idx b (u.length + e.length + 1) 0 = seqName idx b
  rw [show u.length + e.length + 1 = (u.length + e.length) + 1 from rfl]
  unfold searchName
  rw [h0, if_pos hfree]

/-! ## Lemmas about plan lookup, renaming and plan execution -/

@[simp] theorem normcase_eq (s : String) : normcase s = s := rfl

@[simp] theorem map_normcase (l : List String) : l.map normcase = l := by
  calc l.map normcase = l.map id := List.map_congr_left (fun x _ => rfl)
    _ = l := List.map_id l

theorem lookupNew_nil (x : String) : lookupNew [] x = x := rfl

theorem lookupNew_cons_self (o n : String) (rest : List (String × String)) :
    lookupNew ((o, n) :: rest) o = n := by
  simp [lookupNew, List.find?]

theorem lookupNew_cons_ne (o n x : String) (rest : List (String × String))
    (h : x ≠ o) : lookupNew ((o, n) :: rest) x = lookupNew rest x := by
  have hb : (o == x) = false := beq_eq_false_iff_ne.mpr (Ne.symm h)
  simp [lookupNew, List.find?, hb]

theorem lookupNew_not_mem (plan : List (String × String)) (x : String)
    (h : ∀ p ∈ plan, p.1 ≠ x) : lookupNew plan x = x := by
  induction plan with
  | nil => rfl
  | cons p rest ih =>
    obtain ⟨o, n⟩ := p
    rw [lookupNew_cons_ne o n x rest (fun hE => h (o, n) (by simp) (by simp [hE]))]
    exact ih (fun q hq => h q (by simp [hq]))

theorem lookupNew_map_fst (plan : List (String × String))
    (h : (plan.map Prod.fst).Nodup) :
    (plan.map Prod.fst).map (lookupNew plan) = plan.map Prod.snd := by
  induction plan with
  | nil => rfl
  | cons p rest ih =>
    obtain ⟨o, n⟩ := p
    simp only [List.map_cons, List.nodup_cons] at h
    simp only [List.map_cons]
    congr 1
    · exact lookupNew_cons_self o n rest
    · have hpt : ∀ x ∈ rest.map Prod.fst,
          lookupNew ((o, n) :: rest) x = lookupNew rest x := by
        intro x hx
        exact lookupNew_cons_ne o n x rest (fun hE => h.1 (hE ▸ hx))
      rw [List.map_congr_left hpt]
      exact ih h.2

theorem mem_renameFS_of_ne (st : List String) (o n x : String)
    (hx : x ∈ st) (hne : x ≠ o) : x ∈ renameFS st o n := by
  have := List.mem_map_of_mem (fun y => if y = o then n else y) hx
  simpa [renameFS, if_neg hne] using this

theorem mem_of_mem_renameFS (st : List String) (o n x : String)
    (hx : x ∈ renameFS st o n) : x = n ∨ x ∈ st := by
  obtain ⟨y, hy, hxy⟩ := List.mem_map.mp hx
  by_cases h : y = o
  · left; rw [← hxy, if_pos h]
  · right; rw [← hxy, if_neg h]; exact hy

theorem applyPlan_eq_map : ∀ (plan : List (String × String)) (st : List String),
    PlanOK st plan → applyPlan st plan = st.map (lookupNew plan) := by
  intro plan
  induction plan with
  | nil =>
    intro st _
    calc applyPlan st [] = st := rfl
      _ = st.map id := (List.map_id st).symm
      _ = st.map (lookupNew []) := List.map_congr_left (fun x _ => rfl)
  | cons hd rest ih =>
    obtain ⟨o, n⟩ := hd
    intro st hok
    obtain ⟨ho, holds, hfree, hrest⟩ := hok
    by_cases heq : n = o
    · rw [if_pos heq] at hrest
      unfold applyPlan
      have hnc : normcase o = normcase n := by simp [heq]
      simp only [if_pos ho, if_pos hnc]
      rw [ih st hrest]
      apply List.map_congr_left
      intro x hx
      by_cases hxo : x = o
      · rw [hxo, lookupNew_cons_self, heq, lookupNew_not_mem rest o holds]
      · rw [lookupNew_cons_ne o n x rest hxo]
    · rcases hfree with hE | ⟨hn, hfr⟩
      · exact absurd hE heq
      rw [if_neg heq] at hrest
      unfold applyPlan
      have hno : ¬ (normcase o = normcase n) := by
        simpa [normcase] using fun hE => heq hE.symm
      simp only [if_pos ho, if_neg hno]
      rw [ih _ hrest]
      unfold renameFS
      rw [List.map_map]
      apply List.map_congr_left
      intro x hx
      by_cases hxo : x = o
      · have h1 : (lookupNew rest ∘ fun y => if y = o then n else y) x = n := by
          simp only [Function.comp, if_pos hxo]
          exact lookupNew_not_mem rest n (fun p hp => Ne.symm (hfr p hp).1)
        rw [h1, hxo, lookupNew_cons_self]
      · have h1 : (lookupNew rest ∘ fun y => if y = o then n else y) x
            = lookupNew rest x := by
          simp only [Function.comp, if_neg hxo]
        rw [h1, lookupNew_cons_ne o n x rest hxo]

/-! ## Structural lemmas about the file_manager planning loop -/

theorem nonRes_iff (reserved : List String) (x : String) :
    nonRes reserved x = true ↔ x ∉ reserved := by
  simp [nonRes]

theorem planFM_fst (reserved : List String) : ∀ (l : List String) idx used existing,
    (planFM reserved l idx used existing).map Prod.fst = l.filter (nonRes reserved) := by
  intro l
  induction l with
  | nil => intro idx used existing; rfl
  | cons name rest ih =>
    intro idx used existing
    by_cases h : name ∈ reserved
    · have hn : nonRes reserved name = false := by simp [nonRes, h]
      simp only [planFM, if_pos h, List.filter_cons, hn, Bool.false_eq_true, if_false]
      exact ih idx used existing
    · have hn : nonRes reserved name = true := by simp [nonRes, h]
      simp only [planFM, if_neg h, List.map_cons, List.filter_cons, hn, if_true]
      rw [ih]

theorem planFM_fst_mem (reserved : List String) : ∀ (l : List String) idx used existing,
    ∀ p ∈ planFM reserved l idx used existing, p.1 ∈ l := by
  intro l idx used existing p hp
  have h1 : p.1 ∈ (planFM reserved l idx used existing).map Prod.fst :=
    List.mem_map_of_mem Prod.fst hp
  rw [planFM_fst] at h1
  exact List.mem_of_mem_filter h1

theorem planFM_snd_not_mem (reserved : List String) : ∀ (l : List String) idx used existing,
    ∀ p ∈ planFM reserved l idx used existing, p.2 ∉ used := by
  intro l
  induction l with
  | nil => intro idx used existing p hp; simp [planFM] at hp
  | cons name rest ih =>
    intro idx used existing p hp
    by_cases h : name ∈ reserved
    · rw [planFM, if_pos h] at hp
      exact ih idx used existing p hp
    · rw [planFM, if_neg h] at hp
      rcases List.mem_cons.mp hp with hE | hmem
    -- head entry: freshness of pickName; tail entry: monotone in used
      · rw [hE]
        exact (pickName_spec used existing name idx (baseNameFM name)).1
      · intro hu
        exact ih _ _ _ p hmem (List.mem_append.mpr (Or.inl hu))

theorem planFM_snd_nodup (reserved : List String) : ∀ (l : List String) idx used existing,
    ((planFM reserved l idx used existing).map Prod.snd).Nodup := by
  intro l
  induction l with
  | nil => intro idx used existing; simp [planFM]
  | cons name rest ih =>
    intro idx used existing
    by_cases h : name ∈ reserved
    · rw [planFM, if_pos h]; exact ih idx used existing
    · rw [planFM, if_neg h]
      simp only [List.map_cons, List.nodup_cons]
      constructor
      · intro hmem
        obtain ⟨p, hp, hp2⟩ := List.mem_map.mp hmem
        have := planFM_snd_not_mem reserved rest (idx + 1) _ _ p hp
        exact this (by rw [hp2]; simp)
      · exact ih _ _ _

theorem planFM_planOK (reserved : List String) : ∀ (l : List String) idx used existing st,
    l.Nodup → (∀ x ∈ l, x ∈ st) → (∀ x ∈ st, x ∈ existing) →
    PlanOK st (planFM reserved l idx used existing) := by
  intro l
  induction l with
  | nil => intro idx used existing st _ _ _; trivial
  | cons name rest ih =>
    intro idx used existing st hnd hsub hst
    rw [List.nodup_cons] at hnd
    by_cases h : name ∈ reserved
    · rw [planFM, if_pos h]
      exact ih idx used existing st hnd.2 (fun x hx => hsub x (by simp [hx])) hst
    · rw [planFM, if_neg h]
      show PlanOK st _
      refine ⟨hsub name (by simp), ?_, ?_, ?_⟩
      · intro p hp hE
        exact hnd.1 (hE ▸ planFM_fst_mem reserved rest _ _ _ p hp)
      · by_cases hcur : pickName used existing name idx (baseNameFM name) = name
        · exact Or.inl hcur
        · rcases (pickName_spec used existing name idx (baseNameFM name)).2 with hE | hex
          · exact absurd hE hcur
          refine Or.inr ⟨fun hmem => hex (hst _ hmem), ?_⟩
          intro p hp
          constructor
          · intro hE
            apply hex
            rw [hE]
            exact hst _ (hsub p.1
              (List.mem_cons_of_mem _ (planFM_fst_mem reserved rest _ _ _ p hp)))
          · intro hE
            exact planFM_snd_not_mem reserved rest _ _ _ p hp (by simp [hE])
      · set nn := pickName used existing name idx (baseNameFM name) with hnn
        by_cases hcur : nn = name
        · rw [if_pos hcur]
          exact ih _ _ _ st hnd.2 (fun x hx => hsub x (by simp [hx]))
            (fun x hx => List.mem_append.mpr (Or.inl (hst x hx)))
        · rw [if_neg hcur]
          rcases (pickName_spec used existing name idx (baseNameFM name)).2 with hE | hex
          · exact absurd hE hcur
          apply ih _ _ _ _ hnd.2
          · intro x hx
            exact mem_renameFS_of_ne st name nn x (hsub x (by simp [hx]))
              (fun hE => hnd.1 (hE ▸ hx))
          · intro x hx
            rcases mem_of_mem_renameFS st name nn x hx with hE | hmem
            · exact List.mem_append.mpr (Or.inr (by simp [hE]))
            · exact List.mem_append.mpr (Or.inl (hst x hmem))

theorem data_ne_nil_of_ne_empty (s : String) (h : s ≠ "") : s.data ≠ [] := by
  intro hd
  apply h
  cases s with
  | mk l =>
    rw [data_mk] at hd
    rw [hd]

theorem baseNameFM_ne_empty (s : String) (h : s ≠ "") : baseNameFM s ≠ "" := by
  unfold baseNameFM
  split
  · exact h
  · assumption

theorem planFM_twoDigit (reserved : List String) : ∀ (l : List String) idx used existing,
    "" ∉ l → 1 ≤ idx → idx + (l.filter (nonRes reserved)).length ≤ 100 →
    (planFM reserved l idx used existing).map (fun p => twoDigitVal p.2)
      = (List.range (l.filter (nonRes reserved)).length).map (fun k => some (idx + k)) := by
  intro l
  induction l with
  | nil => intro idx used existing _ _ _; rfl
  | cons name rest ih =>
    intro idx used existing hne h1 h99
    have hnn : name ≠ "" := fun hE => hne (by simp [hE])
    have hnr : "" ∉ rest := fun hE => hne (by simp [hE])
    by_cases h : name ∈ reserved
    · have hb : nonRes reserved name = false := by simp [nonRes, h]
      have hlen : (List.filter (nonRes reserved) (name :: rest)).length
          = (List.filter (nonRes reserved) rest).length := by
        simp [List.filter_cons, hb]
      rw [planFM, if_pos h, hlen]
      exact ih idx used existing hnr h1 (by rw [hlen] at h99; exact h99)
    · have hb : nonRes reserved name = true := by simp [nonRes, h]
      rw [planFM, if_neg h]
      simp only [List.filter_cons, hb, if_true, List.length_cons] at h99 ⊢
      rw [List.range_succ_eq_map, List.map_cons, List.map_cons, List.map_map,
        List.cons.injEq]
      refine ⟨?_, ?_⟩
      -- head: the picked name carries the two-digit prefix `idx`
      · obtain ⟨t, ht⟩ := pickName_data used existing name idx (baseNameFM name)
        have hbne : (baseNameFM name).data ++ t ≠ [] := by
          intro hE
          rcases List.append_eq_nil.mp hE with ⟨hE1, -⟩
          exact data_ne_nil_of_ne_empty _ (baseNameFM_ne_empty name hnn) hE1
        rw [twoDigitVal_seq _ idx _ ht (by omega) hbne]
        simp
      · rw [ih (idx + 1) _ _ hnr (by omega) (by omega)]
        apply List.map_congr_left
        intro k _
        simp only [Function.comp]
        congr 1
        omega

/-! ## Claim C1 -/

/-- Claim C1, corrected: for a directory listed as `entries` (pairwise
distinct nonempty names) with reserved set `reserved`, provided at most
99 entries are non-reserved, `_confirm_sort` renames every entry to the
name its pre-computed plan assigns (reserved entries byte-identical to
their old names), the assigned names are pairwise distinct even when
stripped base names coincide, and the non-reserved entries receive
two-digit prefixes forming the contiguous run `01..(N−R)` in the given
visual order.  The original claim, with no bound on `N−R`, fails: the
101st non-reserved entry would receive the three-digit prefix `100_`,
which does not match `^\d{2}_.+` (see the counterexample). -/
theorem c1_sequencing_correct (entries reserved : List String)
    (hnd : entries.Nodup) (hne : "" ∉ entries)
    (hcount : (entries.filter (nonRes reserved)).length ≤ 99) :
    C1Prop entries reserved := by
  have hplan : confirmSortPlan entries reserved entries
      = planFM reserved entries 1 [] entries := by
    unfold confirmSortPlan
    rw [map_normcase]
  refine ⟨?_, ?_, ?_, ?_, ?_⟩
  · unfold confirmSortFM
    apply applyPlan_eq_map
    rw [hplan]
    exact planFM_planOK reserved entries 1 [] entries entries hnd
      (fun x hx => hx) (fun x hx => hx)
  · intro x hx hres
    apply lookupNew_not_mem
    intro p hp hE
    have h1 : p.1 ∈ (confirmSortPlan entries reserved entries).map Prod.fst :=
      List.mem_map_of_mem Prod.fst hp
    rw [hplan, planFM_fst] at h1
    have h2 := (List.mem_filter.mp h1).2
    rw [nonRes_iff] at h2
    exact h2 (hE ▸ hres)
  · rw [hplan]
    exact planFM_snd_nodup reserved entries 1 [] entries
  · have hfst : (confirmSortPlan entries reserved entries).map Prod.fst
        = entries.filter (nonRes reserved) := by
      rw [hplan, planFM_fst]
    have hnodup : ((confirmSortPlan entries reserved entries).map Prod.fst).Nodup := by
      rw [hfst]
      exact hnd.filter _
    rw [← hfst]
    exact lookupNew_map_fst _ hnodup
  · rw [hplan, planFM_twoDigit reserved entries 1 [] entries hne (le_refl 1) (by omega)]
    apply List.map_congr_left
    intro k _
    rw [Nat.add_comm]

/-- Witness for C1 on the spec scenario: reserved "Logo" keeps its name
and the other two entries get `01_`/`02_` prefixes. -/
theorem c1_sequencing_correct_witness :
    C1Prop ["Logo", "Draft", "Final"] ["Logo"] :=
  c1_sequencing_correct ["Logo", "Draft", "Final"] ["Logo"]
    (by decide) (by decide) (by decide)

set_option maxRecDepth 8000 in
set_option maxHeartbeats 2000000 in
/-- Counterexample to C1 as literally stated: in a directory of 100
distinct non-reserved folders, `_confirm_sort` gives the last entry the
name `100_g99`, whose prefix does not match `^\d{2}_.+`. -/
theorem c1_counterexample :
    ¬ (∀ x ∈ confirmSortFM bigDir [] bigDir, (twoDigitVal x).isSome = true) := by
  decide

/-! ## Claim C4 -/

theorem confirmSortDMGo_eq_applyPlanDM : ∀ (l st : List String) (idx : Nat)
    (used : List String),
    confirmSortDMGo l st idx used = applyPlanDM st (planDMGo l st idx used) := by
  intro l
  induction l with
  | nil => intro st idx used; rfl
  | cons name rest ih =>
    intro st idx used
    simp only [confirmSortDMGo, planDMGo, applyPlanDM]
    exact ih _ _ _

/-- Claim C4: both `_confirm_sort` variants execute exactly the rename
plan a pure planning pass computes from the pre-batch snapshot.
file_manager.py builds the complete plan (`confirmSortPlan`) before its
first rename; directory_manager.py interleaves name choice with renames,
and the interleaved run equals executing the plan `planDM` that a pure
pass computes by simulating the renames on the initial snapshot — so in
both variants a later collision never changes the name chosen for an
earlier entry. -/
theorem c4_plan_before_execute :
    (∀ entries reserved st : List String,
       confirmSortFM entries reserved st = applyPlan st (confirmSortPlan entries reserved st)) ∧
    (∀ entries st : List String,
       confirmSortDM entries st = applyPlanDM st (planDM entries st)) := by
  constructor
  · intro entries reserved st
    rfl
  · intro entries st
    exact confirmSortDMGo_eq_applyPlanDM entries st 1 []

/-! ## Claim C5 -/

/-- Claim C5, corrected: in file_manager.py the base name is one leading
match of `^\d+_?` stripped, with fallback to the original name when the
result is empty, and the first candidate formed is
`"{index:02d}_{baseName}"`, which the collision loop returns unchanged
whenever it is free.  In directory_manager.py the underscore after the
digit run is REQUIRED (`^\d+_`) and there is no empty-string fallback,
so the two variants strip differently (e.g. on `"7x"`). -/
theorem c5_base_name_and_first_candidate :
    (∀ (ds r : List Char), (∀ x ∈ ds, x.isDigit = true) → ds ≠ [] →
       stripSeq (String.mk (ds ++ '_' :: r)) = String.mk r ∧
       stripSeqU (String.mk (ds ++ '_' :: r)) = String.mk r) ∧
    (∀ (c : Char) (r : List Char), c.isDigit = false →
       stripSeq (String.mk (c :: r)) = String.mk (c :: r) ∧
       stripSeqU (String.mk (c :: r)) = String.mk (c :: r)) ∧
    (∀ (u e : List String) (cur : String) (idx : Nat) (b : String),
       freeName u e cur (seqName idx b) = true →
       pickName u e cur idx b = seqName idx b) ∧
    (baseNameFM "12" = "12" ∧ stripSeq "12" = "") ∧
    (baseNameFM "7x" = "x" ∧ baseNameDM "7x" = "7x") := by
  refine ⟨?_, ?_, ?_, by decide, by decide⟩
  · intro ds r hds hne
    obtain ⟨ht, hd⟩ := takeWhile_digits_underscore ds r hds
    constructor
    · unfold stripSeq
      rw [data_mk, stripSeqL_run ds r hne hds]
    · unfold stripSeqU stripSeqUL
      rw [data_mk, ht, hd]
      cases ds with
      | nil => exact absurd rfl hne
      | cons c cs => rfl
  · intro c r hc
    constructor
    · unfold stripSeq stripSeqL
      rw [data_mk]
      simp [List.takeWhile_cons, List.dropWhile_cons, hc]
    · unfold stripSeqU stripSeqUL
      rw [data_mk]
      simp [List.takeWhile_cons, List.dropWhile_cons, hc]
  · intro u e cur idx b hfree
    exact pickName_first u e cur idx b hfree

/-- Witness for C5 at concrete inputs: both strips remove `"12_"`, a
non-digit head is left alone, and a collision-free first candidate is
returned unchanged by the search. -/
theorem c5_base_name_witness :
    stripSeq (String.mk (['1', '2'] ++ '_' :: ['a'])) = String.mk ['a'] ∧
    stripSeqU (String.mk (['x'] ++ '_' :: ['a'])) = String.mk (['x'] ++ '_' :: ['a']) ∧
    pickName [] [] "q" 3 "b" = seqName 3 "b" := by
  refine ⟨?_, ?_, ?_⟩
  · exact (c5_base_name_and_first_candidate.1 ['1', '2'] ['a'] (by decide) (by decide)).1
  · exact (c5_base_name_and_first_candidate.2.1 'x' ('_' :: ['a']) (by decide)).2
  · exact c5_base_name_and_first_candidate.2.2.1 [] [] "q" 3 "b" (by decide)

/-- Counterexample to C5 as literally stated: for the folder `"7x"` the
directory_manager variant forms the first candidate from the unstripped
name (`01_7x`), not from the `^\d+_?`-stripped base name the claim
prescribes for both variants (`01_x`). -/
theorem c5_counterexample :
    planDM ["7x"] ["7x"] = [("7x", "01_7x")] ∧
    seqName 1 (baseNameFM "7x") = "01_x" ∧
    ("01_7x" : String) ≠ "01_x" := by
  decide

/-! ## Claim C6 -/

/-- Claim C6: rename errors never abort the batch.  The run over a plan
decomposes as the run over any prefix followed by the run over the rest
(every entry is attempted no matter what faults occurred earlier); a
vanished source is skipped silently producing no report; a fault
classified "in use" produces a warning naming the folder; any other
fault produces a critical report naming the folder and the message; in
both fault cases the state is unchanged by that entry and the rest of
the plan is still processed; and the classifier recognizes
PermissionError, errno EACCES/EBUSY/EPERM and Windows errors 32/33. -/
theorem c6_error_classification :
    (∀ (fault : String → String → Option OsFault) (st : List String)
       (p1 p2 : List (String × String)),
       applyPlanE fault st (p1 ++ p2)
         = ((applyPlanE fault (applyPlanE fault st p1).1 p2).1,
            (applyPlanE fault st p1).2 ++ (applyPlanE fault (applyPlanE fault st p1).1 p2).2)) ∧
    (∀ fault st old nn rest, old ∉ st →
       applyPlanE fault st ((old, nn) :: rest) = applyPlanE fault st rest) ∧
    (∀ fault st old nn rest e, old ∈ st → normcase old ≠ normcase nn →
       fault old nn = some e → isFolderInUseError e = true →
       applyPlanE fault st ((old, nn) :: rest)
         = ((applyPlanE fault st rest).1,
            Report.warning old :: (applyPlanE fault st rest).2)) ∧
    (∀ fault st old nn rest e, old ∈ st → normcase old ≠ normcase nn →
       fault old nn = some e → isFolderInUseError e = false →
       applyPlanE fault st ((old, nn) :: rest)
         = ((applyPlanE fault st rest).1,
            Report.critical old e.msg :: (applyPlanE fault st rest).2)) ∧
    (∀ e : OsFault, e.isPermission = true → isFolderInUseError e = true) ∧
    (∀ e : OsFault,
       e.errnoVal = some EACCES ∨ e.errnoVal = some EBUSY ∨ e.errnoVal = some EPERM →
       isFolderInUseError e = true) ∧
    (∀ e : OsFault, e.winerrVal = some 32 ∨ e.winerrVal = some 33 →
       isFolderInUseError e = true) := by
  refine ⟨?_, ?_, ?_, ?_, ?_, ?_, ?_⟩
  · intro fault st p1 p2
    induction p1 generalizing st with
    | nil => rfl
    | cons hd rest ih =>
      obtain ⟨o, n⟩ := hd
      by_cases ho : o ∈ st
      · by_cases hnc : normcase o = normcase n
        · simp only [List.cons_append, applyPlanE, if_pos ho, if_pos hnc]
          exact ih st
        · rcases hf : fault o n with - | e
          · simp only [List.cons_append, applyPlanE, if_pos ho, if_neg hnc, hf]
            exact ih (renameFS st o n)
          · simp only [List.cons_append, applyPlanE, if_pos ho, if_neg hnc, hf,
              List.append_eq]
            rw [ih st]
      · simp only [List.cons_append, applyPlanE, if_neg ho]
        exact ih st
  · intro fault st old nn rest hold
    simp only [applyPlanE, if_neg hold]
  · intro fault st old nn rest e hold hnc hf huse
    simp only [applyPlanE, if_pos hold, if_neg hnc, hf, huse, if_true]
  · intro fault st old nn rest e hold hnc hf huse
    simp only [applyPlanE, if_pos hold, if_neg hnc, hf, huse, Bool.false_eq_true, if_false]
  · intro e he
    simp [isFolderInUseError, he]
  · intro e he
    rcases he with h | h | h <;> by_cases hp : e.isPermission = true <;>
      simp [isFolderInUseError, hp, h]
  · intro e he
    rcases he with h | h <;> by_cases hp : e.isPermission = true <;>
      simp [isFolderInUseError, hp, h]

/-- Witness for C6 at concrete inputs: a busy fault on the only entry
yields exactly one warning naming it and leaves the state unchanged, a
vanished source yields nothing, and the classifier accepts an EBUSY
fault. -/
theorem c6_error_classification_witness :
    applyPlanE (fun _ _ => some ⟨false, some 16, none, "busy"⟩) ["a", "b"]
        [("a", "01_a"), ("b", "01_b")]
      = (["a", "b"], [Report.warning "a", Report.warning "b"]) ∧
    applyPlanE (fun _ _ => none) ["a"] [("zz", "01_zz")] = (["a"], []) ∧
    isFolderInUseError ⟨false, some EBUSY, none, "m"⟩ = true := by
  refine ⟨?_, ?_, ?_⟩
  · have h1 := c6_error_classification.2.2.1 (fun _ _ => some ⟨false, some 16, none, "busy"⟩)
      ["a", "b"] "a" "01_a" [("b", "01_b")] ⟨false, some 16, none, "busy"⟩
      (by decide) (by decide) rfl (by decide)
    rw [h1]
    decide
  · have h2 := c6_error_classification.2.1 (fun _ _ => none) ["a"] "zz" "01_zz" []
      (by decide)
    rw [h2]
    rfl
  · exact c6_error_classification.2.2.2.2.2.1 ⟨false, some EBUSY, none, "m"⟩
      (Or.inr (Or.inl rfl))

/-! ## Lemmas about the persisted reserved map -/

theorem contains_iff (l : List String) (x : String) :
    l.contains x = true ↔ x ∈ l := by
  simp [List.contains, List.elem_iff]

theorem mapFind_map_update (k : String) (v : List String) :
    ∀ m : List (String × List String),
    (List.find? (fun p => p.1 == k) m).isSome = true →
    mapFind (m.map (fun p => if p.1 = k then (k, v) else p)) k = some v := by
  intro m
  induction m with
  | nil => intro h; simp [List.find?] at h
  | cons a rest ih =>
    intro h
    by_cases hak : a.1 = k
    · simp only [List.map_cons, if_pos hak]
      unfold mapFind
      rw [List.find?_cons_of_pos _ (by simp)]
      rfl
    · simp only [List.map_cons, if_neg hak]
      unfold mapFind
      rw [List.find?_cons_of_neg _ (by simp [hak])]
      apply ih
      rw [List.find?_cons_of_neg _ (by simp [hak])] at h
      exact h

theorem mapFind_append_single (k : String) (v : List String) :
    ∀ m : List (String × List String),
    (List.find? (fun p => p.1 == k) m).isSome = false →
    mapFind (m ++ [(k, v)]) k = some v := by
  intro m
  induction m with
  | nil =>
    intro _
    unfold mapFind
    rw [List.nil_append, List.find?_cons_of_pos _ (by simp)]
    rfl
  | cons a rest ih =>
    intro h
    have hak : ¬ (a.1 = k) := by
      intro hE
      rw [List.find?_cons_of_pos _ (by simp [hE])] at h
      simp at h
    rw [List.find?_cons_of_neg _ (by simp [hak])] at h
    unfold mapFind
    rw [List.cons_append, List.find?_cons_of_neg _ (by simp [hak])]
    exact ih h

theorem mapFind_mapSet (m : List (String × List String)) (k : String)
    (v : List String) : mapFind (mapSet m k v) k = some v := by
  unfold mapSet
  by_cases h : (List.find? (fun p => p.1 == k) m).isSome
  · rw [if_pos h]
    exact mapFind_map_update k v m h
  · rw [if_neg h]
    apply mapFind_append_single k v m
    simp only [Bool.not_eq_true] at h
    exact h

theorem mapFind_mapPop (m : List (String × List String)) (k : String) :
    mapFind (mapPop m k) k = none := by
  unfold mapFind mapPop
  have h : List.find? (fun p => p.1 == k) (m.filter (fun p => p.1 != k)) = none := by
    rw [List.find?_eq_none]
    intro a ha
    have h2 := (List.mem_filter.mp ha).2
    simp only [bne_iff_ne, ne_eq, decide_eq_true_eq] at h2
    simp only [beq_iff_eq]
    exact h2
  rw [h]
  rfl

theorem insertSorted_length (x : String) : ∀ l : List String,
    (insertSorted x l).length = l.length + 1 := by
  intro l
  induction l with
  | nil => rfl
  | cons y ys ih =>
    unfold insertSorted
    split
    · simp
    · simp [ih]

theorem sortStrings_length : ∀ l : List String, (sortStrings l).length = l.length := by
  intro l
  induction l with
  | nil => rfl
  | cons x xs ih =>
    unfold sortStrings
    rw [insertSorted_length, ih, List.length_cons]

theorem sortStrings_ne_nil (l : List String) (h : l ≠ []) : sortStrings l ≠ [] := by
  intro hE
  apply h
  have hlen := sortStrings_length l
  rw [hE] at hlen
  exact List.length_eq_zero.mp hlen.symm

theorem saveReservedState_reserved (s : AppState) :
    (saveReservedState s).reserved = s.reserved := by
  unfold saveReservedState
  split
  · rfl
  · split <;> rfl

/-! ## Claim C10 -/

/-- Claim C10: `_save_reserved_state` persists the active set as the
sorted list of its names when it is nonempty and removes the directory
key entirely when it is empty, so a map whose values are all nonempty
stays that way — the persisted map never maps a path to an empty list. -/
theorem c10_persisted_reserved_never_empty (st : AppState) :
    (st.currentPath ≠ "" → st.reserved ≠ [] →
      mapFind (saveReservedState st).storedMap st.currentPath
        = some (sortStrings st.reserved)) ∧
    (st.currentPath ≠ "" → st.reserved = [] →
      mapFind (saveReservedState st).storedMap st.currentPath = none) ∧
    ((∀ p ∈ st.storedMap, p.2 ≠ []) →
      ∀ p ∈ (saveReservedState st).storedMap, p.2 ≠ []) := by
  refine ⟨?_, ?_, ?_⟩
  · intro h1 h2
    unfold saveReservedState
    rw [if_neg h1, if_pos h2]
    exact mapFind_mapSet st.storedMap st.currentPath (sortStrings st.reserved)
  · intro h1 h2
    unfold saveReservedState
    rw [if_neg h1, if_neg (by simp [h2])]
    exact mapFind_mapPop st.storedMap st.currentPath
  · intro hm p hp
    unfold saveReservedState at hp
    by_cases h1 : st.currentPath = ""
    · rw [if_pos h1] at hp
      exact hm p hp
    · rw [if_neg h1] at hp
      by_cases h2 : st.reserved ≠ []
      · rw [if_pos h2] at hp
        simp only [mapSet] at hp
        split at hp
        · obtain ⟨q, hq, hqp⟩ := List.mem_map.mp hp
          by_cases hqk : q.1 = st.currentPath
          · rw [if_pos hqk] at hqp
            rw [← hqp]
            exact sortStrings_ne_nil st.reserved h2
          · rw [if_neg hqk] at hqp
            exact hqp ▸ hm q hq
        · rcases List.mem_append.mp hp with hmem | hmem
          · exact hm p hmem
          · have hpe : p = (st.currentPath, sortStrings st.reserved) := by
              simpa using hmem
            rw [hpe]
            exact sortStrings_ne_nil st.reserved h2
      · rw [if_neg h2] at hp
        exact hm p ((List.mem_filter.mp hp).1)

/-- Witness for C10: saving with active set `{"b","a"}` under path `"p"`
stores the sorted list `["a","b"]`, and saving an empty active set
removes the key. -/
theorem c10_persisted_reserved_never_empty_witness :
    mapFind (saveReservedState ⟨"p", [], ["b", "a"], [("q", ["w"])]⟩).storedMap "p"
      = some ["a", "b"] ∧
    mapFind (saveReservedState ⟨"p", [], [], [("p", ["z"])]⟩).storedMap "p" = none := by
  constructor
  · have h := (c10_persisted_reserved_never_empty
      ⟨"p", [], ["b", "a"], [("q", ["w"])]⟩).1 (by decide) (by decide)
    rw [h]
    decide
  · exact (c10_persisted_reserved_never_empty
      ⟨"p", [], [], [("p", ["z"])]⟩).2.1 (by decide) rfl

/-! ## Claim C9 -/

/-- Claim C9, corrected: a directory-change notification never refreshes
synchronously — the handler leaves the application state untouched and
only appends a deferred task; a notification whose path differs from the
current path AT NOTIFICATION TIME schedules nothing.  The original
claim's further assertion — that the deferred refresh is also skipped
when the path no longer matches at execution time — is false: the
scheduled `_refresh_list(path)` runs unconditionally when the timer
fires (see the counterexample). -/
theorem c9_deferred_refresh :
    (∀ (st : AppState) (pending : List String) (path : String),
       (onDirectoryChanged st pending path).1 = st) ∧
    (∀ (st : AppState) (pending : List String) (path : String),
       path ≠ st.currentPath → (onDirectoryChanged st pending path).2 = pending) ∧
    (∀ (st : AppState) (pending : List String) (path : String),
       path = st.currentPath →
       (onDirectoryChanged st pending path).2 = pending ++ [path]) := by
  refine ⟨?_, ?_, ?_⟩
  · intro st pending path
    unfold onDirectoryChanged
    split <;> rfl
  · intro st pending path h
    simp [onDirectoryChanged, h]
  · intro st pending path h
    simp [onDirectoryChanged, h]

/-- Witness for C9: a matching notification is queued, a stale one is
dropped. -/
theorem c9_deferred_refresh_witness :
    (onDirectoryChanged ⟨"A", [], [], []⟩ [] "B").2 = [] ∧
    (onDirectoryChanged ⟨"A", [], [], []⟩ [] "A").2 = ["A"] := by
  constructor
  · exact c9_deferred_refresh.2.1 ⟨"A", [], [], []⟩ [] "B" (by decide)
  · have h := c9_deferred_refresh.2.2 ⟨"A", [], [], []⟩ [] "A" rfl
    rw [h]
    rfl

/-- Counterexample to C9 as literally stated: with current path `"A"`, a
notification for `"A"` is queued; the user then navigates to `"B"`;
when the deferred task fires it still refreshes the stale path `"A"`,
changing the current path back — the claim said a stale notification
causes no listing refresh and no change to the current path. -/
theorem c9_counterexample :
    (onDirectoryChanged ⟨"A", ["x"], [], []⟩ [] "A").2 = ["A"] ∧
    (refreshList ⟨"A", ["x"], [], []⟩ "B" ["y"]).currentPath = "B" ∧
    (runPendingRefresh (refreshList ⟨"A", ["x"], [], []⟩ "B" ["y"]) "A" ["x"]).currentPath
      = "A" ∧
    (runPendingRefresh (refreshList ⟨"A", ["x"], [], []⟩ "B" ["y"]) "A" ["x"]).lastFolderList
      = ["x"] := by
  decide

/-! ## Claim C7 -/

/-- Claim C7: after `_refresh_list`, the active reserved set is a subset
of the folders on disk (given that the invariant held before, which the
unchanged-listing short circuit relies on); on a real refresh the active
set becomes the stored set pruned to the listing, and whenever the
pruned set differs from the stored set it is immediately persisted —
sorted under the path when nonempty, with the key removed when empty. -/
theorem c7_reconcile_invariant (st : AppState) (basePath : String)
    (folders : List String) (hb : basePath ≠ "")
    (hpre : basePath = st.currentPath → folders = st.lastFolderList →
      ∀ x ∈ st.reserved, x ∈ folders) :
    (∀ x ∈ (refreshList st basePath folders).reserved, x ∈ folders) ∧
    (¬ (basePath = st.currentPath ∧ folders = st.lastFolderList) →
      (refreshList st basePath folders).reserved
        = (mapGet st.storedMap basePath).filter (fun x => folders.contains x) ∧
      (setEqNames ((mapGet st.storedMap basePath).filter (fun x => folders.contains x))
          (mapGet st.storedMap basePath) = false →
        (((mapGet st.storedMap basePath).filter (fun x => folders.contains x)) ≠ [] →
          mapFind (refreshList st basePath folders).storedMap basePath
            = some (sortStrings ((mapGet st.storedMap basePath).filter
                (fun x => folders.contains x)))) ∧
        (((mapGet st.storedMap basePath).filter (fun x => folders.contains x)) = [] →
          mapFind (refreshList st basePath folders).storedMap basePath = none))) := by
  by_cases hsc : basePath = st.currentPath ∧ folders = st.lastFolderList
  · constructor
    · intro x hx
      unfold refreshList at hx
      rw [if_pos hsc] at hx
      exact hpre hsc.1 hsc.2 x hx
    · intro hn
      exact absurd hsc hn
  · have hres : (refreshList st basePath folders).reserved
        = (mapGet st.storedMap basePath).filter (fun x => folders.contains x) := by
      unfold refreshList
      rw [if_neg hsc]
      split
      · rfl
      · simp [saveReservedState_reserved]
    constructor
    · intro x hx
      rw [hres] at hx
      exact (contains_iff folders x).mp (List.mem_filter.mp hx).2
    · intro _
      refine ⟨hres, ?_⟩
      intro hne
      have hmap : (refreshList st basePath folders).storedMap
          = (saveReservedState
              { st with currentPath := basePath,
                        reserved := (mapGet st.storedMap basePath).filter
                          (fun x => folders.contains x) }).storedMap := by
        unfold refreshList
        rw [if_neg hsc]
        simp only [hne, Bool.false_eq_true, if_false]
      constructor
      · intro hnn
        rw [hmap]
        unfold saveReservedState
        rw [if_neg hb, if_pos (by simpa using hnn)]
        exact mapFind_mapSet _ _ _
      · intro hnil
        rw [hmap]
        unfold saveReservedState
        rw [if_neg hb, if_neg (by simpa using hnil)]
        exact mapFind_mapPop _ _

/-- Witness for C7: with a stored reservation `{"r1","r2"}` for `"A"`
and only `"r1"` remaining on disk, a refresh prunes the active set to
`{"r1"}` and immediately persists it. -/
theorem c7_reconcile_invariant_witness :
    (∀ x ∈ (refreshList ⟨"", [], [], [("A", ["r1", "r2"])]⟩ "A" ["r1", "x"]).reserved,
       x ∈ ["r1", "x"]) ∧
    (refreshList ⟨"", [], [], [("A", ["r1", "r2"])]⟩ "A" ["r1", "x"]).reserved = ["r1"] ∧
    mapFind (refreshList ⟨"", [], [], [("A", ["r1", "r2"])]⟩ "A" ["r1", "x"]).storedMap "A"
      = some ["r1"] := by
  have h := c7_reconcile_invariant ⟨"", [], [], [("A", ["r1", "r2"])]⟩ "A" ["r1", "x"]
    (by decide) (by intro h1 h2; decide)
  refine ⟨h.1, ?_, ?_⟩
  · rw [(h.2 (by decide)).1]
    decide
  · have h3 := ((h.2 (by decide)).2 (by decide)).1 (by decide)
    rw [h3]
    decide

/-! ## Lemmas about persisted-state save and load -/

theorem filterMap_jAsStr (vs : List String) :
    (vs.map J.str).filterMap jAsStr = vs := by
  induction vs with
  | nil => rfl
  | cons v vr vih =>
    simp only [List.map_cons, List.filterMap_cons, jAsStr]
    rw [vih]

theorem loadReserved_encode (reserved : List (String × List String)) :
    loadReserved (J.obj (reserved.map (fun p => (p.1, J.arr (p.2.map J.str)))))
      = reserved := by
  induction reserved with
  | nil => rfl
  | cons p rest ih =>
    obtain ⟨k, vs⟩ := p
    simp only [loadReserved, List.map_cons, List.filterMap_cons] at ih ⊢
    rw [filterMap_jAsStr, ih]

theorem loadNote_encode (now : String) (nt : Note)
    (hc : pyStrip nt.content = nt.content) (hc0 : nt.content ≠ "")
    (ht : pyStrip nt.timestamp = nt.timestamp) (ht0 : nt.timestamp ≠ "")
    (hcat : nt.category = "idea" ∨ nt.category = "todo") :
    loadNote now (encodeNote nt) = some (noteToRec nt) := by
  unfold loadNote encodeNote
  simp only [jGetD, jGet, List.find?, beq_self_eq_true]
  have e1 : (("content" == "timestamp") : Bool) = false := by decide
  have e2 : (("content" == "category") : Bool) = false := by decide
  have e3 : (("content" == "completed") : Bool) = false := by decide
  have e4 : (("timestamp" == "category") : Bool) = false := by decide
  have e5 : (("timestamp" == "completed") : Bool) = false := by decide
  have e6 : (("category" == "completed") : Bool) = false := by decide
  simp only [e1, e2, e3, e4, e5, e6]
  simp only [Option.map_some', Option.getD_some, pyStr, hc, ht]
  rw [if_neg hc0, if_neg ht0]
  rcases hcat with h | h <;> simp [h, pyTruthy, noteToRec]

theorem loadNote_list (now : String) : ∀ notes : List Note,
    (∀ nt ∈ notes, pyStrip nt.content = nt.content ∧ nt.content ≠ "" ∧
      pyStrip nt.timestamp = nt.timestamp ∧ nt.timestamp ≠ "" ∧
      (nt.category = "idea" ∨ nt.category = "todo")) →
    (notes.map encodeNote).filterMap (loadNote now) = notes.map noteToRec := by
  intro notes
  induction notes with
  | nil => intro _; rfl
  | cons nt rest ih =>
    intro hn
    obtain ⟨h1, h2, h3, h4, h5⟩ := hn nt (by simp)
    simp only [List.map_cons, List.filterMap_cons,
      loadNote_encode now nt h1 h2 h3 h4 h5]
    rw [ih (fun m hm => hn m (by simp [hm]))]

theorem loadNotes_encode (now : String) (notes : List Note)
    (hn : ∀ nt ∈ notes, pyStrip nt.content = nt.content ∧ nt.content ≠ "" ∧
      pyStrip nt.timestamp = nt.timestamp ∧ nt.timestamp ≠ "" ∧
      (nt.category = "idea" ∨ nt.category = "todo")) :
    loadNotes now (J.arr (notes.map encodeNote)) = notes.map noteToRec := by
  show (notes.map encodeNote).filterMap (loadNote now) = notes.map noteToRec
  exact loadNote_list now notes hn

theorem loadNote_legacy_list (now : String) : ∀ strs : List String,
    (∀ t ∈ strs, pyStrip t = t ∧ t ≠ "") →
    (strs.map J.str).filterMap (loadNote now)
      = strs.map (fun t => ⟨t, now, "idea", false⟩) := by
  intro strs
  induction strs with
  | nil => intro _; rfl
  | cons t rest ih =>
    intro hs
    obtain ⟨h1, h2⟩ := hs t (by simp)
    have hone : loadNote now (J.str t) = some ⟨t, now, "idea", false⟩ := by
      show (if pyStrip t = "" then (none : Option NoteRec)
            else some ⟨pyStrip t, now, "idea", false⟩) = some ⟨t, now, "idea", false⟩
      rw [h1, if_neg h2]
    simp only [List.map_cons, List.filterMap_cons, hone]
    rw [ih (fun u hu => hs u (by simp [hu]))]

theorem loadNotes_legacy (now : String) (strs : List String)
    (hs : ∀ t ∈ strs, pyStrip t = t ∧ t ≠ "") :
    loadNotes now (J.arr (strs.map J.str))
      = strs.map (fun t => ⟨t, now, "idea", false⟩) := by
  show (strs.map J.str).filterMap (loadNote now) = _
  exact loadNote_legacy_list now strs hs

/-! ## Claim C8 -/

/-- Claim C8, corrected: writing the state document and re-loading it
reproduces the reservation map, the last path, and every note's content,
timestamp, category and completed flag (for well-formed in-memory notes:
trimmed nonempty content and timestamp, valid category), and a legacy
notes array of bare strings is upgraded to full records with the
generated timestamp and category `idea`.  The pinned flag, however, is
NOT preserved: `_load_last_state` normalizes each note without carrying
the pinned key (see the counterexample), so loaded notes are records
without it. -/
theorem c8_save_load_roundtrip :
    (∀ (lastPath : String) (reserved : List (String × List String))
       (notes : List Note) (now : String),
       (∀ nt ∈ notes, pyStrip nt.content = nt.content ∧ nt.content ≠ "" ∧
          pyStrip nt.timestamp = nt.timestamp ∧ nt.timestamp ≠ "" ∧
          (nt.category = "idea" ∨ nt.category = "todo")) →
       (loadLastState (some (encodeState lastPath reserved notes)) now).reserved
           = reserved ∧
       (loadLastState (some (encodeState lastPath reserved notes)) now).notes
           = notes.map noteToRec ∧
       (loadLastState (some (encodeState lastPath reserved notes)) now).lastPath
           = lastPath) ∧
    (∀ (strs : List String) (now : String),
       (∀ t ∈ strs, pyStrip t = t ∧ t ≠ "") → now ≠ "" →
       (loadLastState (some (J.obj [("notes", J.arr (strs.map J.str))])) now).notes
           = strs.map (fun t => ⟨t, now, "idea", false⟩) ∧
       ∀ r ∈ (loadLastState (some (J.obj [("notes", J.arr (strs.map J.str))])) now).notes,
         r.timestamp = now ∧ r.timestamp ≠ "" ∧ r.category = "idea") := by
  constructor
  · intro lastPath reserved notes now hn
    unfold loadLastState encodeState
    simp only [jGetD, jGet, List.find?, beq_self_eq_true]
    have e1 : (("last_path" == "reserved") : Bool) = false := by decide
    have e2 : (("last_path" == "notes") : Bool) = false := by decide
    have e3 : (("reserved" == "notes") : Bool) = false := by decide
    simp only [e1, e2, e3, Option.map_some', Option.getD_some]
    exact ⟨loadReserved_encode reserved, loadNotes_encode now notes hn, trivial⟩
  · intro strs now hs hnow
    have hload :
        (loadLastState (some (J.obj [("notes", J.arr (strs.map J.str))])) now).notes
          = strs.map (fun t => ⟨t, now, "idea", false⟩) := by
      unfold loadLastState
      simp only [jGetD, jGet, List.find?, beq_self_eq_true]
      have e1 : (("notes" == "last_path") : Bool) = false := by decide
      have e2 : (("notes" == "reserved") : Bool) = false := by decide
      simp only [e1, e2, Option.map_some', Option.getD_some]
      exact loadNotes_legacy now strs hs
    refine ⟨hload, ?_⟩
    intro r hr
    rw [hload] at hr
    obtain ⟨t, ht, hrt⟩ := List.mem_map.mp hr
    rw [← hrt]
    exact ⟨rfl, hnow, rfl⟩

/-- Witness for C8 at a concrete state: a reservation map and a complete
note round-trip (minus pinned), and a legacy bare string is upgraded. -/
theorem c8_save_load_roundtrip_witness :
    (loadLastState (some (encodeState "/p" [("/p", ["a"])]
        [⟨"hi", "2024-01-01 10:00", "todo", true, false⟩])) "NOW").reserved
      = [("/p", ["a"])] ∧
    (loadLastState (some (encodeState "/p" [("/p", ["a"])]
        [⟨"hi", "2024-01-01 10:00", "todo", true, false⟩])) "NOW").notes
      = [⟨"hi", "2024-01-01 10:00", "todo", true⟩] ∧
    (loadLastState (some (J.obj [("notes", J.arr [J.str "legacy"])])) "NOW").notes
      = [⟨"legacy", "NOW", "idea", false⟩] := by
  have h1 := c8_save_load_roundtrip.1 "/p" [("/p", ["a"])]
    [⟨"hi", "2024-01-01 10:00", "todo", true, false⟩] "NOW"
    (by intro nt hnt; simp at hnt; rw [hnt]; refine ⟨by decide, by decide, by decide,
      by decide, Or.inr rfl⟩)
  have h2 := c8_save_load_roundtrip.2 ["legacy"] "NOW"
    (by intro t htm; simp at htm; rw [htm]; exact ⟨by decide, by decide⟩) (by decide)
  exact ⟨h1.1, h1.2.1, h2.1⟩

/-- Counterexample to C8 as literally stated: two in-memory states that
differ only in a note's pinned flag load back identically, so no loaded
equivalent can preserve pinned. -/
theorem c8_counterexample :
    loadLastState (some (encodeState "" [] [⟨"a", "t", "idea", false, true⟩])) "N"
      = loadLastState (some (encodeState "" [] [⟨"a", "t", "idea", false, false⟩])) "N" ∧
    (⟨"a", "t", "idea", false, true⟩ : Note) ≠ ⟨"a", "t", "idea", false, false⟩ := by
  decide

/-! ## Lemmas about the prefix-clearing loop -/

theorem mem_renameFS_iff (st : List String) (old nn x : String) (hold : old ∈ st) :
    x ∈ renameFS st old nn ↔ x = nn ∨ (x ∈ st ∧ x ≠ old) := by
  constructor
  · intro hx
    obtain ⟨y, hy, hxy⟩ := List.mem_map.mp hx
    by_cases hyo : y = old
    · left
      rw [← hxy, if_pos hyo]
    · right
      rw [← hxy, if_neg hyo]
      exact ⟨hy, hyo⟩
  · rintro (rfl | ⟨hx, hxo⟩)
    · have hmem := List.mem_map_of_mem (fun y => if y = old then x else y) hold
      simpa [renameFS] using hmem
    · exact mem_renameFS_of_ne st old nn x hx hxo

theorem renameFS_nodup (st : List String) (old nn : String) (hnd : st.Nodup)
    (hnn : nn ∉ st) : (renameFS st old nn).Nodup := by
  apply List.Nodup.map_on ?_ hnd
  intro x hx y hy hxy
  by_cases hxo : x = old <;> by_cases hyo : y = old
  · rw [hxo, hyo]
  · rw [if_pos hxo, if_neg hyo] at hxy
    rw [← hxy] at hy
    exact absurd hy hnn
  · rw [if_neg hxo, if_pos hyo] at hxy
    rw [hxy] at hx
    exact absurd hx hnn
  · rw [if_neg hxo, if_neg hyo] at hxy
    exact hxy

theorem clearFM_establishes (reserved : List String) : ∀ (l existing st : List String),
    l.Nodup → (∀ x ∈ l, x ∈ st) → existing.Nodup → st.Nodup →
    (∀ x, x ∈ existing ↔ x ∈ st) →
    (∀ x ∈ l, stripSeq (stripSeq x) = stripSeq x) →
    (∀ y ∈ st, y ∉ l → StableMid reserved st y) →
    (∀ y ∈ clearSeqNumsFMGo reserved l existing st,
       StableMid reserved (clearSeqNumsFMGo reserved l existing st) y) ∧
    (clearSeqNumsFMGo reserved l existing st).Nodup := by
  intro l
  induction l with
  | nil =>
    intro existing st _ _ _ hstnd _ _ hH
    exact ⟨fun y hy => hH y hy (List.not_mem_nil y), hstnd⟩
  | cons old rest ih =>
    intro existing st hnd0 hsub hexnd hstnd hiff hss hH
    have hold : old ∈ st := hsub old (by simp)
    rw [List.nodup_cons] at hnd0
    by_cases h1 : old ∈ reserved
    · simp only [clearSeqNumsFMGo, if_pos h1]
      apply ih existing st hnd0.2 (fun x hx => hsub x (by simp [hx])) hexnd hstnd hiff
        (fun x hx => hss x (by simp [hx]))
      intro y hy hnotin
      by_cases hyo : y = old
      · exact Or.inl (hyo ▸ h1)
      · exact hH y hy (by simp [hyo, hnotin])
    · simp only [clearSeqNumsFMGo, if_neg h1]
      by_cases h2 : stripSeq old = "" ∨ stripSeq old = old
      · rw [if_pos h2]
        apply ih existing st hnd0.2 (fun x hx => hsub x (by simp [hx])) hexnd hstnd hiff
          (fun x hx => hss x (by simp [hx]))
        intro y hy hnotin
        by_cases hyo : y = old
        · rcases h2 with h | h
          · exact Or.inr (Or.inl (hyo ▸ h))
          · exact Or.inr (Or.inr (Or.inl (hyo ▸ h)))
        · exact hH y hy (by simp [hyo, hnotin])
      · rw [if_neg h2]
        push_neg at h2
        by_cases h3 : normcase (stripSeq old) ∈ existing ∧
            normcase (stripSeq old) ≠ normcase old
        · rw [if_pos h3]
          apply ih existing st hnd0.2 (fun x hx => hsub x (by simp [hx])) hexnd hstnd hiff
            (fun x hx => hss x (by simp [hx]))
          intro y hy hnotin
          by_cases hyo : y = old
          · refine Or.inr (Or.inr (Or.inr ?_))
            rw [hyo]
            exact ⟨(hiff _).mp (by simpa using h3.1), h2.2, hss old (by simp)⟩
          · exact hH y hy (by simp [hyo, hnotin])
        · rw [if_neg h3]
          have hnotex : stripSeq old ∉ existing := by
            intro hmem
            exact h3 ⟨by simpa using hmem, by simpa using h2.2⟩
          have hnn_st : stripSeq old ∉ st := fun hmem => hnotex ((hiff _).mpr hmem)
          apply ih ((existing.erase (normcase old)) ++ [normcase (stripSeq old)])
            (renameFS st old (stripSeq old)) hnd0.2 ?_ ?_ ?_ ?_
            (fun x hx => hss x (by simp [hx])) ?_
          · intro x hx
            exact mem_renameFS_of_ne st old (stripSeq old) x (hsub x (by simp [hx]))
              (fun hE => hnd0.1 (hE ▸ hx))
          · apply List.Nodup.append (hexnd.erase _) (List.nodup_singleton _)
            intro a ha hb
            rw [List.mem_singleton] at hb
            rw [hb] at ha
            exact hnotex (by simpa using List.mem_of_mem_erase ha)
          · exact renameFS_nodup st old (stripSeq old) hstnd hnn_st
          · intro x
            simp only [List.mem_append, List.mem_singleton, normcase_eq]
            rw [hexnd.mem_erase_iff, mem_renameFS_iff st old (stripSeq old) x hold, hiff x]
            constructor
            · rintro (⟨hne, hmem⟩ | hE)
              · exact Or.inr ⟨hmem, hne⟩
              · exact Or.inl hE
            · rintro (hE | ⟨hmem, hne⟩)
              · exact Or.inr hE
              · exact Or.inl ⟨hne, hmem⟩
          · intro y hy hnotin
            rcases (mem_renameFS_iff st old (stripSeq old) y hold).mp hy with
              hynn | ⟨hyst, hyo⟩
            · refine Or.inr (Or.inr (Or.inl ?_))
              rw [hynn]
              exact hss old (by simp)
            · have hSM := hH y hyst (by simp [hyo, hnotin])
              rcases hSM with h | h | h | ⟨hm, hne, hstab⟩
              · exact Or.inl h
              · exact Or.inr (Or.inl h)
              · exact Or.inr (Or.inr (Or.inl h))
              · refine Or.inr (Or.inr (Or.inr ⟨?_, hne, hstab⟩))
                have hsyo : stripSeq y ≠ old := by
                  intro hE
                  rw [hE] at hstab
                  exact h2.2 hstab
                exact (mem_renameFS_iff st old (stripSeq old) _ hold).mpr
                  (Or.inr ⟨hm, hsyo⟩)

theorem clearFM_noop (reserved : List String) : ∀ (l existing st : List String),
    (∀ x, x ∈ existing ↔ x ∈ st) →
    (∀ y ∈ l, y ∈ st ∧ StableMid reserved st y) →
    clearSeqNumsFMGo reserved l existing st = st := by
  intro l
  induction l with
  | nil => intro existing st _ _; rfl
  | cons y rest ih =>
    intro existing st hiff hl
    obtain ⟨hy, hSM⟩ := hl y (by simp)
    have hrest : ∀ z ∈ rest, z ∈ st ∧ StableMid reserved st z :=
      fun z hz => hl z (by simp [hz])
    by_cases h1 : y ∈ reserved
    · simp only [clearSeqNumsFMGo, if_pos h1]
      exact ih existing st hiff hrest
    · simp only [clearSeqNumsFMGo, if_neg h1]
      by_cases h2 : stripSeq y = "" ∨ stripSeq y = y
      · rw [if_pos h2]
        exact ih existing st hiff hrest
      · rcases hSM with h | h | h | ⟨hm, hne, -⟩
        · exact absurd h h1
        · exact absurd (Or.inl h) h2
        · exact absurd (Or.inr h) h2
        · rw [if_neg h2, if_pos (by
            refine ⟨?_, ?_⟩
            · simpa using (hiff _).mpr hm
            · simpa using hne)]
          exact ih existing st hiff hrest

theorem clearDMGo_eq_FMGo : ∀ (l existing st : List String),
    l.Nodup → (∀ x ∈ l, x ∈ st) → existing.Nodup → st.Nodup →
    (∀ x, x ∈ existing ↔ x ∈ st) →
    clearSeqNumsDMGo l st = clearSeqNumsFMGo [] l existing st := by
  intro l
  induction l with
  | nil => intro existing st _ _ _ _ _; rfl
  | cons old rest ih =>
    intro existing st hnd0 hsub hexnd hstnd hiff
    have hold : old ∈ st := hsub old (by simp)
    rw [List.nodup_cons] at hnd0
    have hres : old ∉ ([] : List String) := List.not_mem_nil old
    simp only [clearSeqNumsDMGo, clearSeqNumsFMGo, if_neg hres]
    by_cases h2 : stripSeq old = "" ∨ stripSeq old = old
    · have hc1 : ¬ (stripSeq old ≠ "" ∧ stripSeq old ≠ old) := by
        rintro ⟨ha, hb⟩
        rcases h2 with h | h
        · exact ha h
        · exact hb h
      rw [if_neg hc1, if_pos h2]
      exact ih existing st hnd0.2 (fun x hx => hsub x (by simp [hx])) hexnd hstnd hiff
    · push_neg at h2
      have hc1 : stripSeq old ≠ "" ∧ stripSeq old ≠ old := ⟨h2.1, h2.2⟩
      have hc0 : ¬ (stripSeq old = "" ∨ stripSeq old = old) := by
        rintro (hE | hE)
        · exact h2.1 hE
        · exact h2.2 hE
      rw [if_pos hc1, if_neg hc0]
      by_cases h3 : stripSeq old ∈ st
      · have hc2 : normcase (stripSeq old) ∈ existing ∧
            normcase (stripSeq old) ≠ normcase old := by
          refine ⟨?_, ?_⟩
          · simpa using (hiff _).mpr h3
          · simpa using h2.2
        rw [if_pos h3, if_pos hc2]
        exact ih existing st hnd0.2 (fun x hx => hsub x (by simp [hx])) hexnd hstnd hiff
      · have hc2 : ¬ (normcase (stripSeq old) ∈ existing ∧
            normcase (stripSeq old) ≠ normcase old) := by
          rintro ⟨hmem, -⟩
          exact h3 ((hiff _).mp (by simpa using hmem))
        rw [if_neg h3, if_neg hc2]
        have hnotex : stripSeq old ∉ existing := fun hmem => h3 ((hiff _).mp hmem)
        apply ih ((existing.erase (normcase old)) ++ [normcase (stripSeq old)])
          (renameFS st old (stripSeq old)) hnd0.2 ?_ ?_ ?_ ?_
        · intro x hx
          exact mem_renameFS_of_ne st old (stripSeq old) x (hsub x (by simp [hx]))
            (fun hE => hnd0.1 (hE ▸ hx))
        · apply List.Nodup.append (hexnd.erase _) (List.nodup_singleton _)
          intro a ha hb
          rw [List.mem_singleton] at hb
          rw [hb] at ha
          exact hnotex (by simpa using List.mem_of_mem_erase ha)
        · exact renameFS_nodup st old (stripSeq old) hstnd h3
        · intro x
          simp only [List.mem_append, List.mem_singleton, normcase_eq]
          rw [hexnd.mem_erase_iff, mem_renameFS_iff st old (stripSeq old) x hold, hiff x]
          constructor
          · rintro (⟨hne, hmem⟩ | hE)
            · exact Or.inr ⟨hmem, hne⟩
            · exact Or.inl hE
          · rintro (hE | ⟨hmem, hne⟩)
            · exact Or.inr hE
            · exact Or.inl ⟨hne, hmem⟩

/-! ## Claim C3 -/

/-- Claim C3, corrected: `_clear_prefix_number` is idempotent on
directories in which no name carries a second numeric prefix (stripping
once is already stable), in both source variants.  The original claim —
idempotence including names such as `12_34_x` — is false: the first run
renames `12_34_x` to `34_x`, and the second run renames again to `x`
(see the counterexample). -/
theorem c3_clear_idempotent (st reserved : List String) (hnd : st.Nodup)
    (hss : ∀ x ∈ st, stripSeq (stripSeq x) = stripSeq x) :
    clearSeqNumsFM (clearSeqNumsFM st reserved) reserved = clearSeqNumsFM st reserved ∧
    clearSeqNumsDM (clearSeqNumsDM st) = clearSeqNumsDM st := by
  have hfm : ∀ resv : List String,
      clearSeqNumsFM (clearSeqNumsFM st resv) resv = clearSeqNumsFM st resv := by
    intro resv
    have h1 : clearSeqNumsFM st resv = clearSeqNumsFMGo resv st st st := by
      unfold clearSeqNumsFM
      simp only [map_normcase]
    obtain ⟨hstable, hnd1⟩ := clearFM_establishes resv st st st hnd
      (fun x hx => hx) hnd hnd (fun x => Iff.rfl) hss
      (fun y hy hn => absurd hy hn)
    rw [h1]
    have h2 : clearSeqNumsFM (clearSeqNumsFMGo resv st st st) resv
        = clearSeqNumsFMGo resv (clearSeqNumsFMGo resv st st st)
            (clearSeqNumsFMGo resv st st st) (clearSeqNumsFMGo resv st st st) := by
      unfold clearSeqNumsFM
      simp only [map_normcase]
    rw [h2]
    exact clearFM_noop resv _ _ _ (fun x => Iff.rfl)
      (fun y hy => ⟨hy, hstable y hy⟩)
  refine ⟨hfm reserved, ?_⟩
  have hdm : clearSeqNumsDM st = clearSeqNumsFM st [] := by
    unfold clearSeqNumsDM clearSeqNumsFM
    simp only [map_normcase]
    exact clearDMGo_eq_FMGo st st st hnd (fun x hx => hx) hnd hnd (fun x => Iff.rfl)
  obtain ⟨hstable1, hnd1⟩ := clearFM_establishes [] st st st hnd
    (fun x hx => hx) hnd hnd (fun x => Iff.rfl) hss
    (fun y hy hn => absurd hy hn)
  have hfm0 : clearSeqNumsFM st [] = clearSeqNumsFMGo [] st st st := by
    unfold clearSeqNumsFM
    simp only [map_normcase]
  have hss1 : ∀ x ∈ clearSeqNumsFM st [], stripSeq (stripSeq x) = stripSeq x := by
    intro x hx
    rw [hfm0] at hx
    rcases hstable1 x hx with h | h | h | ⟨-, -, h⟩
    · exact absurd h (List.not_mem_nil x)
    · rw [h]
      rfl
    · rw [h, h]
    · exact h
  have hnd1' : (clearSeqNumsFM st []).Nodup := by
    rw [hfm0]
    exact hnd1
  have hdm1 : clearSeqNumsDM (clearSeqNumsDM st) = clearSeqNumsFM (clearSeqNumsDM st) [] := by
    rw [hdm, hfm0]
    unfold clearSeqNumsDM clearSeqNumsFM
    simp only [map_normcase]
    exact clearDMGo_eq_FMGo _ _ _ hnd1 (fun x hx => hx) hnd1 hnd1 (fun x => Iff.rfl)
  rw [hdm1, hdm]
  -- second FM pass over the first FM result is a no-op
  obtain ⟨hstable2, -⟩ := clearFM_establishes [] st st st hnd
    (fun x hx => hx) hnd hnd (fun x => Iff.rfl) hss
    (fun y hy hn => absurd hy hn)
  have h2 : clearSeqNumsFM (clearSeqNumsFM st []) []
      = clearSeqNumsFMGo [] (clearSeqNumsFM st []) (clearSeqNumsFM st [])
          (clearSeqNumsFM st []) := by
    unfold clearSeqNumsFM
    simp only [map_normcase]
  rw [h2]
  apply clearFM_noop [] _ _ _ (fun x => Iff.rfl)
  intro y hy
  refine ⟨hy, ?_⟩
  rw [hfm0] at hy
  have := hstable2 y hy
  rw [hfm0]
  exact this

/-- Witness for C3: clearing `03_Draft` with `Logo` reserved strips once
and a second run changes nothing, in both variants. -/
theorem c3_clear_idempotent_witness :
    clearSeqNumsFM (clearSeqNumsFM ["03_Draft", "Logo"] ["Logo"]) ["Logo"]
      = clearSeqNumsFM ["03_Draft", "Logo"] ["Logo"] ∧
    clearSeqNumsDM (clearSeqNumsDM ["03_Draft", "Logo"])
      = clearSeqNumsDM ["03_Draft", "Logo"] :=
  c3_clear_idempotent ["03_Draft", "Logo"] ["Logo"] (by decide) (by decide)

/-- Counterexample to C3 as literally stated: for the single folder
`12_34_x` (no reservations) the first run renames it to `34_x` and the
second run mutates again, renaming to `x` — in both source variants. -/
theorem c3_counterexample :
    clearSeqNumsFM ["12_34_x"] [] = ["34_x"] ∧
    clearSeqNumsFM (clearSeqNumsFM ["12_34_x"] []) [] = ["x"] ∧
    clearSeqNumsFM (clearSeqNumsFM ["12_34_x"] []) [] ≠ clearSeqNumsFM ["12_34_x"] [] ∧
    clearSeqNumsDM (clearSeqNumsDM ["12_34_x"]) ≠ clearSeqNumsDM ["12_34_x"] := by
  decide

/-! ## Lemmas about idempotence of the sequencing pass -/

theorem mk_data (s : String) : String.mk s.data = s := by
  cases s
  rfl

theorem ne_empty_of_data_ne_nil (s : String) (h : s.data ≠ []) : s ≠ "" := by
  intro hE
  rw [hE] at h
  exact h rfl

theorem stripSeq_tryCand (idx : Nat) (b : String) (j : Nat) :
    stripSeq (tryCand idx b j) = String.mk (b.data ++ sfxL j) := by
  unfold stripSeq
  rw [tryCand_data, stripSeqL_run _ _ (pad2_ne_nil idx) (pad2_digits idx)]

theorem baseNameFM_tryCand (idx : Nat) (b : String) (j : Nat) (hb : b ≠ "") :
    baseNameFM (tryCand idx b j) = String.mk (b.data ++ sfxL j) := by
  unfold baseNameFM
  rw [stripSeq_tryCand]
  rw [if_neg]
  apply ne_empty_of_data_ne_nil
  rw [data_mk]
  intro hE
  rcases List.append_eq_nil.mp hE with ⟨h1, -⟩
  exact data_ne_nil_of_ne_empty b hb h1

theorem seqName_tryCand (idx : Nat) (b : String) (j : Nat) (hb : b ≠ "") :
    seqName idx (baseNameFM (tryCand idx b j)) = tryCand idx b j := by
  rw [baseNameFM_tryCand idx b j hb]
  unfold seqName
  rw [data_mk, ← mk_data (tryCand idx b j), tryCand_data]

theorem planFM_snd_fresh (reserved : List String) : ∀ (l : List String) idx used existing,
    ∀ p ∈ planFM reserved l idx used existing, p.2 = p.1 ∨ p.2 ∉ existing := by
  intro l
  induction l with
  | nil => intro idx used existing p hp; simp [planFM] at hp
  | cons name rest ih =>
    intro idx used existing p hp
    by_cases h : name ∈ reserved
    · rw [planFM, if_pos h] at hp
      exact ih idx used existing p hp
    · rw [planFM, if_neg h] at hp
      rcases List.mem_cons.mp hp with hE | hmem
      · rw [hE]
        exact (pickName_spec used existing name idx (baseNameFM name)).2
      · rcases ih _ _ _ p hmem with hE | hnot
        · exact Or.inl hE
        · exact Or.inr (fun hmem2 => hnot (List.mem_append.mpr (Or.inl hmem2)))

theorem snd_nodup_inj (plan : List (String × String))
    (h : (plan.map Prod.snd).Nodup) :
    ∀ p ∈ plan, ∀ q ∈ plan, p.2 = q.2 → p = q := by
  induction plan with
  | nil => intro p hp; simp at hp
  | cons a rest ih =>
    simp only [List.map_cons, List.nodup_cons] at h
    intro p hp q hq hpq
    rcases List.mem_cons.mp hp with hp1 | hp2 <;> rcases List.mem_cons.mp hq with hq1 | hq2
    · rw [hp1, hq1]
    · exfalso
      apply h.1
      rw [hp1] at hpq
      rw [hpq]
      exact List.mem_map_of_mem Prod.snd hq2
    · exfalso
      apply h.1
      rw [hq1] at hpq
      rw [← hpq]
      exact List.mem_map_of_mem Prod.snd hp2
    · exact ih h.2 p hp2 q hq2 hpq

theorem lookupNew_char (plan : List (String × String)) (z : String) :
    lookupNew plan z = z ∨ (z, lookupNew plan z) ∈ plan := by
  unfold lookupNew
  cases hf : plan.find? (fun p => p.1 == z) with
  | none => exact Or.inl rfl
  | some p =>
    right
    have hmem := List.mem_of_find?_eq_some hf
    have hpz : p.1 = z := by simpa using List.find?_some hf
    have hp : p = (z, p.2) := by
      rw [← hpz]
    rw [← hp]
    exact hmem

theorem map_lookupNew_nodup (st : List String) (plan : List (String × String))
    (hst : st.Nodup) (hnews : (plan.map Prod.snd).Nodup)
    (hfresh : ∀ p ∈ plan, p.2 = p.1 ∨ p.2 ∉ st) :
    (st.map (lookupNew plan)).Nodup := by
  apply List.Nodup.map_on ?_ hst
  intro x hx y hy hxy
  rcases lookupNew_char plan x with hxs | hxp <;> rcases lookupNew_char plan y with hys | hyp
  · rw [hxs, hys] at hxy
    exact hxy
  · rw [hxs] at hxy
    rcases hfresh _ hyp with hE | hnotin
    · simp only at hE
      rw [hxy, hE]
    · rw [← hxy] at hnotin
      exact absurd hx hnotin
  · rw [hys] at hxy
    rcases hfresh _ hxp with hE | hnotin
    · simp only at hE
      rw [← hxy, hE]
    · rw [hxy] at hnotin
      exact absurd hy hnotin
  · have := snd_nodup_inj plan hnews _ hxp _ hyp (by simpa using hxy)
    simpa using congrArg Prod.fst this

theorem planFM_of_selfAligned (reserved : List String) : ∀ (l : List String) idx used existing,
    l.Nodup → (∀ x ∈ l, x ∉ used) → SelfAligned reserved idx l →
    planFM reserved l idx used existing
      = (l.filter (nonRes reserved)).map (fun c => (c, c)) := by
  intro l
  induction l with
  | nil => intro idx used existing _ _ _; rfl
  | cons x rest ih =>
    intro idx used existing hnd hused hsa
    rw [List.nodup_cons] at hnd
    by_cases hx : x ∈ reserved
    · have hb : nonRes reserved x = false := by simp [nonRes, hx]
      simp only [SelfAligned, if_pos hx] at hsa
      simp only [planFM, if_pos hx, List.filter_cons, hb, Bool.false_eq_true, if_false]
      exact ih idx used existing hnd.2 (fun z hz => hused z (by simp [hz])) hsa
    · have hb : nonRes reserved x = true := by simp [nonRes, hx]
      simp only [SelfAligned, if_neg hx] at hsa
      have hfree : freeName used existing x (seqName idx (baseNameFM x)) = true := by
        rw [hsa.1, freeName_iff]
        exact ⟨hused x (by simp), Or.inl rfl⟩
      simp only [planFM, if_neg hx, List.filter_cons, hb, if_true, List.map_cons,
        pickName_first used existing x idx (baseNameFM x) hfree, hsa.1]
      rw [ih (idx + 1) (used ++ [x]) (existing ++ [normcase x]) hnd.2 ?_ hsa.2]
      intro z hz
      rw [List.mem_append, List.mem_singleton]
      rintro (hmem | hE)
      · exact hused z (by simp [hz]) hmem
      · exact hnd.1 (hE ▸ hz)

theorem applyPlan_noop (st : List String) : ∀ l : List String,
    applyPlan st (l.map (fun c => (c, c))) = st := by
  intro l
  induction l with
  | nil => rfl
  | cons c rest ih =>
    simp only [List.map_cons, applyPlan]
    by_cases h : c ∈ st
    · simp only [if_pos h, normcase_eq, if_pos rfl]
      exact ih
    · simp only [if_neg h]
      exact ih

theorem planFM_selfAligned_result (reserved : List String) :
    ∀ (l : List String) idx used existing,
    l.Nodup → "" ∉ l → (∀ r ∈ reserved, r ∈ existing) →
    SelfAligned reserved idx
      (l.map (lookupNew (planFM reserved l idx used existing))) := by
  intro l
  induction l with
  | nil => intro idx used existing _ _ _; trivial
  | cons x rest ih =>
    intro idx used existing hnd hne hres
    rw [List.nodup_cons] at hnd
    have hnx : x ≠ "" := fun hE => hne (by simp [hE])
    have hner : "" ∉ rest := fun hE => hne (by simp [hE])
    by_cases hx : x ∈ reserved
    · simp only [planFM, if_pos hx, List.map_cons]
      have hxl : lookupNew (planFM reserved rest idx used existing) x = x := by
        apply lookupNew_not_mem
        intro p hp hE
        exact hnd.1 (hE ▸ planFM_fst_mem reserved rest _ _ _ p hp)
      rw [hxl]
      show SelfAligned reserved idx (x :: _)
      simp only [SelfAligned, if_pos hx]
      exact ih idx used existing hnd.2 hner hres
    · simp only [planFM, if_neg hx, List.map_cons]
      have hxl : lookupNew ((x, pickName used existing x idx (baseNameFM x)) ::
          planFM reserved rest (idx + 1)
            (used ++ [pickName used existing x idx (baseNameFM x)])
            (existing ++ [normcase (pickName used existing x idx (baseNameFM x))])) x
          = pickName used existing x idx (baseNameFM x) := lookupNew_cons_self _ _ _
      rw [hxl]
      have hrest : rest.map (lookupNew ((x, pickName used existing x idx (baseNameFM x)) ::
          planFM reserved rest (idx + 1)
            (used ++ [pickName used existing x idx (baseNameFM x)])
            (existing ++ [normcase (pickName used existing x idx (baseNameFM x))])))
          = rest.map (lookupNew (planFM reserved rest (idx + 1)
            (used ++ [pickName used existing x idx (baseNameFM x)])
            (existing ++ [normcase (pickName used existing x idx (baseNameFM x))]))) := by
        apply List.map_congr_left
        intro z hz
        exact lookupNew_cons_ne _ _ z _ (fun hE => hnd.1 (hE ▸ hz))
      rw [hrest]
      have hpinres : pickName used existing x idx (baseNameFM x) ∉ reserved := by
        rcases (pickName_spec used existing x idx (baseNameFM x)).2 with hE | hnot
        · rw [hE]
          exact hx
        · intro hmem
          exact hnot (hres _ hmem)
      show SelfAligned reserved idx (pickName used existing x idx (baseNameFM x) :: _)
      simp only [SelfAligned, if_neg hpinres]
      constructor
      · obtain ⟨j, hj⟩ := pickName_eq_tryCand used existing x idx (baseNameFM x)
        rw [hj]
        exact seqName_tryCand idx (baseNameFM x) j (baseNameFM_ne_empty x hnx)
      · apply ih (idx + 1) _ _ hnd.2 hner
        intro r hr
        exact List.mem_append.mpr (Or.inl (hres r hr))

/-! ## Claim C2 -/

/-- Claim C2: `_confirm_sort` is idempotent — running it again on its
own output, with the entries in the same order and the same reserved set
(which names only listed entries), produces a plan in which every entry
is a no-op (old name equals new name, so the execution loop skips every
rename), leaving the directory state exactly as after the first run. -/
theorem c2_confirm_sort_idempotent (entries reserved : List String)
    (hnd : entries.Nodup) (hne : "" ∉ entries)
    (hsub : ∀ r ∈ reserved, r ∈ entries) :
    C2Prop entries reserved := by
  have hplan : confirmSortPlan entries reserved entries
      = planFM reserved entries 1 [] entries := by
    unfold confirmSortPlan
    rw [map_normcase]
  have hresult : confirmSortFM entries reserved entries
      = entries.map (lookupNew (planFM reserved entries 1 [] entries)) := by
    unfold confirmSortFM
    rw [hplan]
    exact applyPlan_eq_map _ _ (planFM_planOK reserved entries 1 [] entries entries hnd
      (fun x hx => hx) (fun x hx => hx))
  have hnd2 : (entries.map (lookupNew (planFM reserved entries 1 [] entries))).Nodup := by
    apply map_lookupNew_nodup entries _ hnd
      (planFM_snd_nodup reserved entries 1 [] entries)
    exact planFM_snd_fresh reserved entries 1 [] entries
  have hsa : SelfAligned reserved 1
      (entries.map (lookupNew (planFM reserved entries 1 [] entries))) :=
    planFM_selfAligned_result reserved entries 1 [] entries hnd hne hsub
  have hplan2 : confirmSortPlan
        (entries.map (lookupNew (planFM reserved entries 1 [] entries))) reserved
        (entries.map (lookupNew (planFM reserved entries 1 [] entries)))
      = ((entries.map (lookupNew (planFM reserved entries 1 [] entries))).filter
          (nonRes reserved)).map (fun c => (c, c)) := by
    unfold confirmSortPlan
    rw [map_normcase]
    exact planFM_of_selfAligned reserved _ 1 [] _ hnd2
      (fun x _ => List.not_mem_nil x) hsa
  constructor
  · intro p hp
    rw [hresult, hplan2] at hp
    obtain ⟨c, -, hc⟩ := List.mem_map.mp hp
    rw [← hc]
  · rw [hresult]
    unfold confirmSortFM
    rw [hplan2]
    exact applyPlan_noop _ _

/-- Witness for C2 on the spec scenario directory: a second run over the
output of sequencing `["Final", "Logo", "03_Draft"]` performs no rename. -/
theorem c2_confirm_sort_idempotent_witness :
    C2Prop ["Final", "Logo", "03_Draft"] [] :=
  c2_confirm_sort_idempotent ["Final", "Logo", "03_Draft"] []
    (by decide) (by decide) (by decide)

end FMspec
